import Mathlib

/-!
# gtools: priority relay (`unboundedChan`) and elastic pool (`pool`)

A shallow embedding of `src/unboundedChan/chan.go`, `src/pool/pool.go` and
`src/twoQueues/cache.go`.

* The buffer `chanBuffer[T]` (a `container/list` doubly linked list) is a `List`.
* Go `int` priorities are only ever compared, so they are `Int`.
* The coordinator goroutine of `NewUnboundedChan` and the goroutines of the pool are
  transition systems: one `step` per atomic action of a goroutine, every interleaving
  being a sequence of such steps.
-/

namespace Gtools

/-! ## `unboundedChan`: data model -/

/-- The Go struct `ChanItem[T]`: a value tagged with a priority (chan.go, lines 7-10). -/
structure ChanItem (T : Type) where
  Value : T
  Priority : Int
deriving DecidableEq, Repr

/-- The loop of the last branch of `PushPriorityItem` (chan.go, lines 74-80), started at
an element `e`: an element whose priority is at least that of `v` is skipped; `v` is
inserted before the first element of strictly lower priority and the loop stops. When the
loop runs off the end of the list nothing is inserted. -/
def scanInsert {T : Type} (v : ChanItem T) : List (ChanItem T) → List (ChanItem T)
  | [] => []
  | e :: es => if v.Priority ≤ e.Priority then e :: scanInsert v es else v :: e :: es

/-- The method `chanBuffer.PushPriorityItem` (chan.go, lines 66-82). -/
def PushPriorityItem {T : Type} (ls : List (ChanItem T)) (v : ChanItem T) :
    List (ChanItem T) :=
  match ls with
  | [] => [v]
  | front :: rest =>
    if v.Priority > front.Priority then v :: front :: rest
    else if v.Priority ≤ ((front :: rest).getLast (List.cons_ne_nil front rest)).Priority then
      (front :: rest) ++ [v]
    else front :: scanInsert v rest

/-- Pushing a sequence of items, one after another, into an initially empty buffer. -/
def pushAll {T : Type} (xs : List (ChanItem T)) : List (ChanItem T) :=
  xs.foldl PushPriorityItem []

/-- The buffer order: priorities are non-increasing from front to back. -/
def PrioSorted {T : Type} (ls : List (ChanItem T)) : Prop :=
  ls.Pairwise (fun a b => b.Priority ≤ a.Priority)

/-- Reference insertion: `v` goes immediately before the first element whose priority
is strictly lower, at the back when there is none. -/
def insertAfterGE {T : Type} (v : ChanItem T) : List (ChanItem T) → List (ChanItem T)
  | [] => [v]
  | e :: es => if v.Priority ≤ e.Priority then e :: insertAfterGE v es else v :: e :: es

/-! ## `unboundedChan`: the coordinator goroutine of `NewUnboundedChan` -/

/-- Program points of the coordinator goroutine (chan.go, lines 31-58). -/
inductive RelayLoc
  /-- Blocked on `val, ok := <-in` at line 35. -/
  | outer
  /-- In the loop of lines 46-56, at the `select` of line 47. -/
  | inner
  /-- Left the accept loop by the `break` of line 37; the deferred `close(out)` has run. -/
  | done
deriving DecidableEq, Repr

/-- State of a relay. `buffer`, `loc` and `inOpen` are the state of the code (the list
`ch.buffer`, the program point of the coordinator, whether `In` has been closed).
The rest is ghost state used to state properties: every accepted item is paired with
its arrival number (the second component of its value), `accepted` logs the items the
coordinator received from `In` and `delivered` the items whose value it sent on `Out`. -/
structure RelayState (T : Type) where
  loc : RelayLoc
  buffer : List (ChanItem (T × Nat))
  inOpen : Bool
  accepted : List (ChanItem (T × Nat))
  delivered : List (ChanItem (T × Nat))
deriving DecidableEq, Repr

/-- Atomic actions of a relay. -/
inductive RelayAction (T : Type)
  /-- The coordinator receives `v` at line 35 and a receiver is ready on `Out`: the
  `select` of line 40 sends `v.Value` (line 41) and the loop continues at line 35. -/
  | acceptDirect (v : ChanItem T)
  /-- The coordinator receives `v` and buffers it: at line 35 followed by the `default`
  of line 43-44, or at line 50 followed by line 54. -/
  | acceptBuffer (v : ChanItem T)
  /-- The `select` of line 47 sends the value of the front element on `Out` (line 48) and
  removes that element (line 49). -/
  | sendFront
  /-- Somebody closes `In`. -/
  | closeIn
  /-- The coordinator receives from the closed `In` (`ok` is false): `break` at
  line 37, or `continue` at line 52. -/
  | seeClosed
deriving DecidableEq, Repr

namespace RelayState

variable {T : Type}

/-- The relay returned by `NewUnboundedChan`: empty buffer, coordinator at line 35. -/
def init : RelayState T :=
  { loc := .outer, buffer := [], inOpen := true, accepted := [], delivered := [] }

/-- The method `UnboundedChan.Len` (chan.go, lines 62-64). -/
def Len (s : RelayState T) : Nat := s.buffer.length

/-- An incoming item paired with its arrival number. -/
def stamp (s : RelayState T) (v : ChanItem T) : ChanItem (T × Nat) :=
  ⟨(v.Value, s.accepted.length), v.Priority⟩

/-- The loop condition `ch.buffer.Len() > 0` of line 46: the `select` of line 47 when it
holds, back to line 35 when it does not. -/
def loopHead (buf : List (ChanItem (T × Nat))) : RelayLoc :=
  if buf.length > 0 then .inner else .outer

/-- One atomic action of the relay; `none` when the action is not enabled. -/
def step (s : RelayState T) : RelayAction T → Option (RelayState T)
  | .acceptDirect v =>
    if s.inOpen = true ∧ s.loc = .outer then
      some { s with accepted := s.accepted ++ [s.stamp v],
                    delivered := s.delivered ++ [s.stamp v] }
    else none
  | .acceptBuffer v =>
    if s.inOpen = true ∧ s.loc ≠ .done then
      some { s with buffer := PushPriorityItem s.buffer (s.stamp v),
                    loc := loopHead (PushPriorityItem s.buffer (s.stamp v)),
                    accepted := s.accepted ++ [s.stamp v] }
    else none
  | .sendFront =>
    if s.loc = .inner then
      match s.buffer with
      | [] => none
      | x :: rest =>
        some { s with buffer := rest, loc := loopHead rest, delivered := s.delivered ++ [x] }
    else none
  | .closeIn =>
    if s.inOpen = true then some { s with inOpen := false } else none
  | .seeClosed =>
    if s.inOpen = false then
      match s.loc with
      | .outer => some { s with loc := .done }
      | .inner => some { s with loc := loopHead s.buffer }
      | .done => none
    else none

/-- The item whose value an action sends on `Out`, if it sends one. -/
def output (s : RelayState T) : RelayAction T → Option (ChanItem (T × Nat))
  | .acceptDirect v => if s.inOpen = true ∧ s.loc = .outer then some (s.stamp v) else none
  | .sendFront => if s.loc = .inner then s.buffer.head? else none
  | _ => none

/-- Running a sequence of actions. -/
def run (s : RelayState T) : List (RelayAction T) → Option (RelayState T)
  | [] => some s
  | a :: as => (s.step a).bind (fun s' => s'.run as)

/-- The states a relay can be in: those reached from `init` by enabled actions. -/
inductive Reachable : RelayState T → Prop
  | init : Reachable init
  | step {s s' : RelayState T} (a : RelayAction T) :
      Reachable s → s.step a = some s' → Reachable s'

end RelayState

/-- Relay order on stamped items: `a` is ahead of `b` when its priority is strictly
greater, or equal with an earlier arrival. -/
def Ahead {T : Type} (a b : ChanItem (T × Nat)) : Prop :=
  b.Priority < a.Priority ∨ (b.Priority = a.Priority ∧ a.Value.2 < b.Value.2)

/-- What holds in every reachable state of a relay. -/
structure RelayInv {T : Type} (s : RelayState T) : Prop where
  atLoc : s.loc = RelayState.loopHead s.buffer ∨ (s.loc = .done ∧ s.buffer = [] ∧ s.inOpen = false)
  ordered : s.buffer.Pairwise Ahead
  fresh : ∀ b ∈ s.buffer, b.Value.2 < s.accepted.length
  conserve : s.accepted.Perm (s.delivered ++ s.buffer)
  stamps : s.accepted.map (fun b => b.Value.2) = List.range s.accepted.length

/-! ## `unboundedChan`: the coordinator goroutine, statement by statement

`RelayState.step` takes each receive from `In` together with the statement that follows
it, and the send of line 48 together with the `Remove` of line 49. The transition system
below has one step per statement, so it also has the states in between, which another
goroutine can observe: `Execute` returns as soon as the receive of line 35 or 50 has
taken its item, and `Len()` reads the buffer without synchronisation. -/

/-- Program points of the coordinator goroutine (chan.go, lines 31-58), one per
statement. -/
inductive CoordLoc (T : Type)
  /-- Blocked on `val, ok := <-in` at line 35. -/
  | recv35
  /-- Line 35 received `v` with `ok` true; the `select` of line 40 has not run yet. -/
  | got35 (v : ChanItem (T × Nat))
  /-- About to evaluate the loop condition `ch.buffer.Len() > 0` of line 46. -/
  | test46
  /-- At the `select` of line 47. -/
  | select47
  /-- The send of line 48 has completed; the `Remove` of line 49 has not run yet. -/
  | sent48
  /-- Line 50 received `v` with `ok` true; the push of line 54 has not run yet. -/
  | got50 (v : ChanItem (T × Nat))
  /-- Left the accept loop by the `break` of line 37; the deferred `close(out)` has run. -/
  | done
deriving DecidableEq, Repr

/-- State of the coordinator, statement by statement: the list `ch.buffer`, the program
point, whether `In` has been closed, and the ghost logs of `RelayState`. -/
structure CoordState (T : Type) where
  loc : CoordLoc T
  buffer : List (ChanItem (T × Nat))
  inOpen : Bool
  accepted : List (ChanItem (T × Nat))
  delivered : List (ChanItem (T × Nat))
deriving DecidableEq, Repr

/-- Statements of the coordinator, and the closing of `In` by another goroutine. -/
inductive CoordAction (T : Type)
  /-- The receive of line 35 or of line 50 takes `v` from a sender. -/
  | receive (v : ChanItem T)
  /-- The `select` of line 40 sends the value in hand on `Out` (line 41), a receiver
  being ready, and the loop continues at line 35. -/
  | direct
  /-- `ch.buffer.PushPriorityItem(val)`, at line 44 or at line 54. -/
  | push
  /-- The loop condition of line 46 is evaluated. -/
  | test
  /-- The `select` of line 47 sends the value of the front element on `Out` (line 48). -/
  | send
  /-- `ch.buffer.Remove(ch.buffer.Front())` at line 49. -/
  | remove
  /-- Somebody closes `In`. -/
  | closeIn
  /-- The receive of line 35 or of line 50 finds `In` closed: `break` at line 37,
  `continue` at line 52. -/
  | seeClosed
deriving DecidableEq, Repr

namespace CoordState

variable {T : Type}

/-- The coordinator started by `NewUnboundedChan`: empty buffer, at line 35. -/
def init : CoordState T :=
  { loc := .recv35, buffer := [], inOpen := true, accepted := [], delivered := [] }

/-- The method `UnboundedChan.Len` (chan.go, lines 62-64). -/
def Len (s : CoordState T) : Nat := s.buffer.length

/-- An incoming item paired with its arrival number. -/
def stamp (s : CoordState T) (v : ChanItem T) : ChanItem (T × Nat) :=
  ⟨(v.Value, s.accepted.length), v.Priority⟩

/-- One statement of the coordinator; `none` when it is not the statement to run. -/
def step (s : CoordState T) : CoordAction T → Option (CoordState T)
  | .receive v =>
    if s.inOpen = true then
      match s.loc with
      | .recv35 => some { s with loc := .got35 (s.stamp v), accepted := s.accepted ++ [s.stamp v] }
      | .select47 => some { s with loc := .got50 (s.stamp v), accepted := s.accepted ++ [s.stamp v] }
      | _ => none
    else none
  | .direct =>
    match s.loc with
    | .got35 x => some { s with loc := .recv35, delivered := s.delivered ++ [x] }
    | _ => none
  | .push =>
    match s.loc with
    | .got35 x => some { s with loc := .test46, buffer := PushPriorityItem s.buffer x }
    | .got50 x => some { s with loc := .test46, buffer := PushPriorityItem s.buffer x }
    | _ => none
  | .test =>
    match s.loc with
    | .test46 => some { s with loc := if s.buffer.length > 0 then .select47 else .recv35 }
    | _ => none
  | .send =>
    match s.loc, s.buffer with
    | .select47, x :: _ => some { s with loc := .sent48, delivered := s.delivered ++ [x] }
    | _, _ => none
  | .remove =>
    match s.loc with
    | .sent48 => some { s with loc := .test46, buffer := s.buffer.tail }
    | _ => none
  | .closeIn =>
    if s.inOpen = true then some { s with inOpen := false } else none
  | .seeClosed =>
    if s.inOpen = false then
      match s.loc with
      | .recv35 => some { s with loc := .done }
      | .select47 => some { s with loc := .test46 }
      | _ => none
    else none

/-- Running a sequence of statements. -/
def run (s : CoordState T) : List (CoordAction T) → Option (CoordState T)
  | [] => some s
  | a :: as => (s.step a).bind (fun s' => s'.run as)

/-- The states the coordinator can be in: those reached from `init`. -/
inductive Reachable : CoordState T → Prop
  | init : Reachable init
  | step {s s' : CoordState T} (a : CoordAction T) :
      Reachable s → s.step a = some s' → Reachable s'

/-- The item the coordinator has received and neither sent nor pushed yet. -/
def inHand (s : CoordState T) : List (ChanItem (T × Nat)) :=
  match s.loc with
  | .got35 x => [x]
  | .got50 x => [x]
  | _ => []

/-- The buffered items not yet sent: the buffer, less its front element between the
send of line 48 and the `Remove` of line 49. -/
def unsent (s : CoordState T) : List (ChanItem (T × Nat)) :=
  match s.loc with
  | .sent48 => s.buffer.tail
  | _ => s.buffer

/-- The coordinator is between two statement groups: at the receive of line 35, at the
loop condition of line 46, at the `select` of line 47, or finished. -/
def atRest (s : CoordState T) : Bool :=
  match s.loc with
  | .recv35 => true
  | .test46 => true
  | .select47 => true
  | .done => true
  | _ => false

end CoordState

/-- What holds in every reachable state of the coordinator, statement by statement. -/
structure CoordInv {T : Type} (s : CoordState T) : Prop where
  conserve : s.accepted.Perm (s.delivered ++ s.unsent ++ s.inHand)
  sent : s.loc = .sent48 → ∃ x, s.buffer.head? = some x ∧ x ∈ s.delivered
  stamps : s.accepted.map (fun b => b.Value.2) = List.range s.accepted.length

/-- The coordinator that has received item 10 at line 35 and not yet run the `select` of
line 40. -/
def coordHolding : CoordState Nat :=
  { loc := .got35 ⟨(10, 0), 1⟩, buffer := [], inOpen := true,
    accepted := [⟨(10, 0), 1⟩], delivered := [] }

/-- The coordinator that has buffered item 10 and sent it at line 48, before the
`Remove` of line 49. -/
def coordSent : CoordState Nat :=
  { loc := .sent48, buffer := [⟨(10, 0), 1⟩], inOpen := true,
    accepted := [⟨(10, 0), 1⟩], delivered := [⟨(10, 0), 1⟩] }

/-! ## `pool`: the elastic pool -/

/-- A work item `func()`: the closures submitted to the pool are identified by a number. -/
abbrev Task := Nat

/-- Program points of a worker goroutine `Pool.coroutine` (pool.go, lines 97-113). -/
inductive WorkerLoc
  /-- At the `select` of line 102. -/
  | idle
  /-- Executing `run()` at line 106; `none` is the nil function. -/
  | running (f : Option Task)
  /-- Returned from the loop (line 104 or line 109); the deferred `<-p.semaphore` of
  line 99 has not run yet, the slot is still held. -/
  | leaving
  /-- The deferred function has released the slot; the goroutine is finished. -/
  | dead
deriving DecidableEq, Repr

/-- A worker goroutine that has not finished. -/
def WorkerLoc.isAlive : WorkerLoc → Bool
  | .dead => false
  | _ => true

/-- A worker goroutine between its `return` and the release of its slot. -/
def WorkerLoc.isLeaving : WorkerLoc → Bool
  | .leaving => true
  | _ => false

/-- Program points of the dispatcher goroutine `Pool.init` (pool.go, lines 59-95). -/
inductive DispLoc
  /-- In the loop of lines 60-63, about to test `i < p.corePoolSize`. -/
  | boot (i : Nat)
  /-- At the `select` of line 69. -/
  | await
  /-- At the `select` of line 75 (label `pushTask`). -/
  | pushTask
  /-- Blocked on the send `p.queue <- run` of line 89. -/
  | handoff
  /-- At the loop condition `p.workQueue.Len() > 0` of line 80, after `close` at line 77. -/
  | drain
  /-- Blocked on the receive `<-p.workQueue.Out` of line 81. -/
  | drainRecv
  /-- Returned at line 83. -/
  | stopped
deriving DecidableEq, Repr

/-- State of a pool. `maxSize` is the capacity of the channel `p.semaphore` and `sem` the
number of elements in it (`len(p.semaphore)`); `cancelled` says that `ctx.Done()` is
closed, that is `p.Done` was called; `run` is the local variable `run` of `init`;
`workers` has one entry per worker goroutine ever started. `handed` (the values sent
through `p.queue`) and `executed` (the work items whose execution finished) are ghost
logs. -/
structure PoolState where
  keepAliveTime : Int
  awaitTime : Int
  maxSize : Int
  coreSize : Int
  cancelled : Bool
  sem : Nat
  disp : DispLoc
  run : Option Task
  workers : List WorkerLoc
  relay : RelayState Task
  handed : List (Option Task)
  executed : List Task
deriving DecidableEq, Repr

/-- Atomic actions of the goroutines of a pool and of its callers. -/
inductive PoolAction
  /-- A caller invokes `p.Done()`, the cancel function of the context. -/
  | done
  /-- A caller invokes `Execute(f, prio)` and the relay coordinator receives the item:
  with `direct` it hands the value straight to the dispatcher waiting on `Out`, without
  `direct` it buffers the item. -/
  | execute (f : Task) (prio : Int) (direct : Bool)
  /-- The relay coordinator receives from the closed `In`. -/
  | relaySeeClosed
  /-- Line 60-62 with `i < p.corePoolSize`: reserve a slot and start a worker. -/
  | spawnCore
  /-- Line 60 with `i < p.corePoolSize` false: the dispatcher enters its loop. -/
  | enterLoop
  /-- The `select` of line 69 takes `case <-ctx.Done()`. -/
  | awaitCancel
  /-- The `select` of line 69 takes `case run = <-p.workQueue.Out`, the relay coordinator
  sending the front of its buffer. -/
  | awaitRecv
  /-- The `select` of line 75 takes `case <-ctx.Done()` and closes `In` (line 77). -/
  | pushCancel
  /-- The `select` of line 75 takes `case p.queue <- run`, worker `w` receiving at
  line 105. As for every `select`, any alternative that can proceed may be the one taken. -/
  | pushHand (w : Nat)
  /-- The `select` of line 75 takes `case <-time.After(p.awaitTime)`, followed by the
  `select` of line 86. -/
  | pushTimeout
  /-- The send of line 89 completes, worker `w` receiving at line 105. -/
  | handoff (w : Nat)
  /-- The loop condition of line 80 is evaluated. -/
  | drainCheck
  /-- The receive of line 81 completes. -/
  | drainRecv
  /-- Worker `w` takes `case <-ctx.Done()` at line 103 and returns. -/
  | workerCancel (w : Nat)
  /-- The call `run()` of worker `w` returns; calling the nil function panics instead,
  so there is no such step for it. -/
  | workerFinish (w : Nat)
  /-- Worker `w` takes `case <-time.After(p.keepAliveTime)` at line 107 and evaluates
  `len(p.semaphore) > p.corePoolSize`. -/
  | workerIdle (w : Nat)
  /-- The deferred `<-p.semaphore` of worker `w` runs (line 99). -/
  | workerRelease (w : Nat)
deriving DecidableEq, Repr

/-- The function `New` (pool.go, lines 39-57): the state in which it returns, the
dispatcher goroutine just started, or the message of its panic. -/
def New (keepAliveTime awaitTime maximumPoolSize corePoolSize : Int) : Except String PoolState :=
  if corePoolSize > maximumPoolSize then
    .error "corePoolSize must be less than maximumPoolSize"
  else if maximumPoolSize < 0 then
    .error "makechan: size out of range"
  else
    .ok { keepAliveTime := keepAliveTime, awaitTime := awaitTime,
          maxSize := maximumPoolSize, coreSize := corePoolSize,
          cancelled := false, sem := 0, disp := .boot 0, run := none, workers := [],
          relay := RelayState.init, handed := [], executed := [] }

/-- The duration `time.Minute`, in nanoseconds. -/
def minute : Int := 60000000000

/-- The duration `time.Hour`, in nanoseconds. -/
def hour : Int := 60 * minute

/-- The function `DefaultCachedPool` (pool.go, lines 27-29). -/
def DefaultCachedPool : Except String PoolState := New minute 0 2147483647 0

/-- The function `DefaultFixedPool` (pool.go, lines 31-33). -/
def DefaultFixedPool (nCoroutines : Int) : Except String PoolState :=
  New hour 0 nCoroutines nCoroutines

/-- The function `DefaultSinglePool` (pool.go, lines 35-37). -/
def DefaultSinglePool : Except String PoolState := New hour 0 1 1

namespace PoolState

/-- The number of alive workers: the worker goroutines that have not finished. -/
def alive (s : PoolState) : Nat := s.workers.countP WorkerLoc.isAlive

/-- The number of workers that have returned from their loop and not yet released
their slot. -/
def leavingCount (s : PoolState) : Nat := s.workers.countP WorkerLoc.isLeaving

/-- The dispatcher hands its variable `run` to the idle worker `w` through `p.queue`
(line 84 or line 89 paired with line 105) and goes back to line 69. -/
def hand (s : PoolState) (w : Nat) : Option PoolState :=
  if s.workers[w]? = some .idle then
    some { s with workers := s.workers.set w (.running s.run), disp := .await,
                  handed := s.handed ++ [s.run] }
  else none

/-- One atomic action of the pool; `none` when the action is not enabled. -/
def step (s : PoolState) : PoolAction → Option PoolState
  | .done => some { s with cancelled := true }
  | .execute f prio direct =>
    if direct = true then
      match s.relay.step (.acceptDirect ⟨f, prio⟩) with
      | some r =>
        if s.disp = .await then some { s with relay := r, run := some f, disp := .pushTask }
        else if s.disp = .drainRecv then some { s with relay := r, disp := .drain }
        else none
      | none => none
    else
      match s.relay.step (.acceptBuffer ⟨f, prio⟩) with
      | some r => some { s with relay := r }
      | none => none
  | .relaySeeClosed =>
    match s.relay.step .seeClosed with
    | some r => some { s with relay := r }
    | none => none
  | .spawnCore =>
    match s.disp with
    | .boot i =>
      if (i : Int) < s.coreSize ∧ (s.sem : Int) < s.maxSize then
        some { s with sem := s.sem + 1, workers := s.workers ++ [.idle], disp := .boot (i + 1) }
      else none
    | _ => none
  | .enterLoop =>
    match s.disp with
    | .boot i => if (i : Int) < s.coreSize then none else some { s with disp := .await }
    | _ => none
  | .awaitCancel =>
    if s.disp = .await ∧ s.cancelled = true then some { s with disp := .pushTask } else none
  | .awaitRecv =>
    if s.disp = .await then
      if s.relay.loc = .done then some { s with run := none, disp := .pushTask }
      else
        match s.relay.output .sendFront, s.relay.step .sendFront with
        | some x, some r => some { s with relay := r, run := some x.Value.1, disp := .pushTask }
        | _, _ => none
    else none
  | .pushCancel =>
    if s.disp = .pushTask ∧ s.cancelled = true then
      match s.relay.step .closeIn with
      | some r => some { s with relay := r, disp := .drain }
      | none => none
    else none
  | .pushHand w => if s.disp = .pushTask then s.hand w else none
  | .pushTimeout =>
    if s.disp = .pushTask then
      if (s.sem : Int) < s.maxSize then
        some { s with sem := s.sem + 1, workers := s.workers ++ [.idle], disp := .handoff }
      else some s
    else none
  | .handoff w => if s.disp = .handoff then s.hand w else none
  | .drainCheck =>
    if s.disp = .drain then
      if s.relay.Len > 0 then some { s with disp := .drainRecv }
      else some { s with disp := .stopped }
    else none
  | .drainRecv =>
    if s.disp = .drainRecv then
      if s.relay.loc = .done then some { s with disp := .drain }
      else
        match s.relay.step .sendFront with
        | some r => some { s with relay := r, disp := .drain }
        | none => none
    else none
  | .workerCancel w =>
    if s.workers[w]? = some .idle ∧ s.cancelled = true then
      some { s with workers := s.workers.set w .leaving }
    else none
  | .workerFinish w =>
    match s.workers[w]? with
    | some (.running (some f)) =>
      some { s with workers := s.workers.set w .idle, executed := s.executed ++ [f] }
    | _ => none
  | .workerIdle w =>
    if s.workers[w]? = some .idle then
      if (s.sem : Int) > s.coreSize then some { s with workers := s.workers.set w .leaving }
      else some s
    else none
  | .workerRelease w =>
    if s.workers[w]? = some .leaving ∧ s.sem > 0 then
      some { s with workers := s.workers.set w .dead, sem := s.sem - 1 }
    else none

/-- Running a sequence of actions. -/
def exec (s : PoolState) : List PoolAction → Option PoolState
  | [] => some s
  | a :: as => (s.step a).bind (fun s' => s'.exec as)

/-- The states a pool can be in: those reached by enabled actions, under any
interleaving, from a state in which `New` returned. -/
inductive Reachable : PoolState → Prop
  | init {s : PoolState} (keepAliveTime awaitTime maximumPoolSize corePoolSize : Int) :
      New keepAliveTime awaitTime maximumPoolSize corePoolSize = .ok s → Reachable s
  | step {s s' : PoolState} (a : PoolAction) : Reachable s → s.step a = some s' → Reachable s'

/-- The states reached by the executions in which the idle-timeout decisions of the
workers are serialised: no worker evaluates the test of line 108 while another worker
that has returned from its loop still holds its slot. -/
inductive SerialReachable : PoolState → Prop
  | init {s : PoolState} (keepAliveTime awaitTime maximumPoolSize corePoolSize : Int) :
      New keepAliveTime awaitTime maximumPoolSize corePoolSize = .ok s → SerialReachable s
  | step {s s' : PoolState} (a : PoolAction) : SerialReachable s →
      (∀ w, a = .workerIdle w → s.leavingCount = 0) → s.step a = some s' → SerialReachable s'

/-- The number of workers the dispatcher has provided for so far: the loop counter `i`
during the start-up loop of lines 60-63, `corePoolSize` afterwards. -/
def provided (s : PoolState) : Int :=
  match s.disp with
  | .boot i => i
  | _ => s.coreSize

end PoolState

/-- The floor kept by serialised executions until `Done` is called. -/
def FloorInv (s : PoolState) : Prop :=
  s.cancelled = false →
    s.provided ≤ (s.sem : Int) - s.leavingCount
    ∧ ∀ i, s.disp = .boot i → i = 0 ∨ (i : Int) ≤ s.coreSize

/-! ## `twoQueues`: the sharded two-queue cache -/

namespace twoQueues

/-- The Go struct `entry[K, V]` (cache.go, lines 30-33); keys are strings. -/
structure entry (V : Type) where
  key : String
  value : V
deriving DecidableEq, Repr

/-- The Go struct `cacheShard[K, V]` (cache.go, lines 15-23). An `lruCache` is its list
`l` of entries, front first; its map `mp` is the index of that list by key (every
operation of `get` and `set` updates the two together), so `mp[key]` is the lookup of
`key` in the list. The mutex `mu` makes `get` and `set` atomic. -/
structure cacheShard (V : Type) where
  history : List (entry V)
  cache : List (entry V)
  maxShardSize : Int
  maxHistorySize : Int
deriving DecidableEq, Repr

/-- The Go struct `Cache[K, V]` (cache.go, lines 9-13). `seed` stands for the function
`maphash.String(ca.seed, ·)` fixed by the random seed of line 42; `shardMask` is a
`uint64`. -/
structure Cache (V : Type) where
  seed : String → Nat
  shardMask : Nat
  shard : List (cacheShard V)

/-- The map access `e, ok := mp[key]`: the element of key `key`, if there is one. -/
def lookup {V : Type} (l : List (entry V)) (key : String) : Option (entry V) :=
  l.find? (fun e => e.key == key)

/-- The pair `delete(mp, key)`, `l.Remove(e)` for the element `e` found at `mp[key]`. -/
def remove {V : Type} (l : List (entry V)) (key : String) : List (entry V) :=
  l.eraseP (fun e => e.key == key)

/-- The assignment `e.Value.(*entry[K, V]).value = value` on the element found at
`mp[key]`: the entry is updated in place. -/
def setValue {V : Type} : List (entry V) → String → V → List (entry V)
  | [], _, _ => []
  | e :: es, key, value =>
    if e.key == key then ⟨e.key, value⟩ :: es else e :: setValue es key value

/-- The eviction of lines 78-82 and of lines 106-110: when the list is longer than `max`
its back element is removed, from the list and from the map. -/
def evict {V : Type} (l : List (entry V)) (max : Int) : List (entry V) :=
  if (l.length : Int) > max then l.dropLast else l

/-- The method `cacheShard.get` (cache.go, lines 65-87): the result `(value, true)` is
`some value`, the result `(*new(V), false)` is `none`; the second component is the shard
after the call. -/
def cacheShard.get {V : Type} (ca : cacheShard V) (key : String) : Option V × cacheShard V :=
  match lookup ca.cache key with
  | some e => (some e.value, { ca with cache := e :: remove ca.cache key })
  | none =>
    match lookup ca.history key with
    | some e =>
      (some e.value, { ca with cache := evict (e :: ca.cache) ca.maxShardSize,
                               history := remove ca.history key })
    | none => (none, ca)

/-- The method `cacheShard.set` (cache.go, lines 89-112). -/
def cacheShard.set {V : Type} (ca : cacheShard V) (key : String) (value : V) : cacheShard V :=
  match lookup ca.history key with
  | some _ => { ca with history := setValue ca.history key value }
  | none =>
    match lookup ca.cache key with
    | some e =>
      { ca with history := evict (⟨e.key, value⟩ :: ca.history) ca.maxHistorySize,
                cache := remove ca.cache key }
    | none => { ca with history := evict (⟨key, value⟩ :: ca.history) ca.maxHistorySize }

/-- A Go `int` result: 64-bit two's complement wrap-around. -/
def wrapInt64 (x : Int) : Int := (x + 2 ^ 63) % 2 ^ 64 - 2 ^ 63

/-- The shard built by the loop body of `New` (cache.go, lines 48-59), for
`int(shards)` equal to `shards`: Go's `/` truncates and `*` wraps around. -/
def newShard {V : Type} (maxCacheSize : Int) (shards : Nat) : cacheShard V :=
  { history := [], cache := [],
    maxShardSize := Int.tdiv maxCacheSize shards,
    maxHistorySize := wrapInt64 (Int.tdiv maxCacheSize shards * 10) }

/-- The function `New` (cache.go, lines 35-63), for the seed drawn at line 42: the cache
it returns or the message of its panic. `make` panics when the length does not fit an
`int`; for the lengths it accepts, `int(shards)` is `shards`. The memory `make` needs is
not represented: on a 64-bit platform the code's `make` also panics from 2^46 shards on,
and the program runs out of memory below that, where this definition returns a cache. -/
def New {V : Type} (seed : String → Nat) (maxCacheSize : Int) (shards : Nat) :
    Except String (Cache V) :=
  if shards ≠ 1 ∧ shards &&& 1 ≠ 0 then
    .error "shards must be a power of 2"
  else if shards ≥ 2 ^ 63 then
    .error "makeslice: len out of range"
  else
    .ok { seed := seed, shardMask := (shards + 2 ^ 64 - 1) % 2 ^ 64,
          shard := List.replicate shards (newShard maxCacheSize shards) }

/-- The index of the shard used by `Get` and `Set` (cache.go, lines 115-118 and
122-125): 0 when `shardMask` is 0, otherwise the 64-bit hash of the key masked by
`shardMask`. -/
def Cache.shardIndex {V : Type} (ca : Cache V) (k : String) : Nat :=
  if ca.shardMask = 0 then 0 else (ca.seed k % 2 ^ 64) &&& ca.shardMask

/-- The method `Cache.Get` (cache.go, lines 114-119); indexing `ca.shard` out of range
panics. -/
def Cache.Get {V : Type} (ca : Cache V) (k : String) : Except String (Option V × Cache V) :=
  match ca.shard[ca.shardIndex k]? with
  | none => .error "index out of range"
  | some sh => .ok ((sh.get k).1, { ca with shard := ca.shard.set (ca.shardIndex k) (sh.get k).2 })

/-- The method `Cache.Set` (cache.go, lines 121-127). -/
def Cache.Set {V : Type} (ca : Cache V) (key : String) (value : V) : Except String (Cache V) :=
  match ca.shard[ca.shardIndex key]? with
  | none => .error "index out of range"
  | some sh => .ok { ca with shard := ca.shard.set (ca.shardIndex key) (sh.set key value) }

/-- A call of `get` or `set`. -/
inductive Call (V : Type)
  | get (key : String)
  | set (key : String) (value : V)
deriving DecidableEq, Repr

/-- A shard after one call of `get` or `set`. -/
def cacheShard.call {V : Type} (ca : cacheShard V) : Call V → cacheShard V
  | .get key => (ca.get key).2
  | .set key value => ca.set key value

/-- A shard after a sequence of calls. -/
def cacheShard.calls {V : Type} (ca : cacheShard V) (cs : List (Call V)) : cacheShard V :=
  cs.foldl cacheShard.call ca

/-- A cache after one call of `Get` or `Set`, or the message of the panic. -/
def Cache.call {V : Type} (ca : Cache V) : Call V → Except String (Cache V)
  | .get key => (ca.Get key).map (fun r => r.2)
  | .set key value => ca.Set key value

/-- A cache after a sequence of calls, or the message of the first panic. -/
def Cache.calls {V : Type} (ca : Cache V) : List (Call V) → Except String (Cache V)
  | [] => .ok ca
  | c :: cs => (ca.call c).bind (fun ca' => ca'.calls cs)

/-- A number is a power of two. -/
def IsPowerOfTwo (n : Nat) : Prop := ∃ k : Nat, n = 2 ^ k

/-- The largest Go `int`, `math.MaxInt64`. -/
def maxInt64 : Int := 2 ^ 63 - 1

end twoQueues

/-- The sizes of the two lists of a shard stay within its two limits. -/
def ShardBound {V : Type} (sh : twoQueues.cacheShard V) : Prop :=
  (sh.cache.length : Int) ≤ max sh.maxShardSize 0
  ∧ (sh.history.length : Int) ≤ max sh.maxHistorySize 0

/-- What holds of a cache built by `New` for `shards` shards, after any calls: the slice
of shards has `shardMask + 1 = shards` elements, each with the limits set by `New` and
with lists within these limits. -/
def CacheInv {V : Type} (maxCacheSize : Int) (shards : Nat) (ca : twoQueues.Cache V) : Prop :=
  ca.shardMask + 1 = shards ∧ ca.shard.length = shards
  ∧ ∀ sh ∈ ca.shard, sh.maxShardSize = Int.tdiv maxCacheSize shards
      ∧ sh.maxHistorySize = twoQueues.wrapInt64 (Int.tdiv maxCacheSize shards * 10) ∧ ShardBound sh

/-- In a shard no key occurs twice in a list, and no key is in both lists. -/
def KeysInv {V : Type} (sh : twoQueues.cacheShard V) : Prop :=
  (sh.history.map twoQueues.entry.key).Nodup ∧ (sh.cache.map twoQueues.entry.key).Nodup
  ∧ ∀ k, k ∈ sh.history.map twoQueues.entry.key → k ∉ sh.cache.map twoQueues.entry.key

/-! ## Example states -/

/-- A relay that buffered, with no receiver ready, an item of priority 1 and then one of
priority 5. -/
def relayTwoBuffered : RelayState Nat :=
  { loc := .inner, buffer := [⟨(11, 1), 5⟩, ⟨(10, 0), 1⟩], inOpen := true,
    accepted := [⟨(10, 0), 1⟩, ⟨(11, 1), 5⟩], delivered := [] }

/-- A relay that buffered one item, after which `In` was closed. -/
def relayClosedNonEmpty : RelayState Nat :=
  { loc := .inner, buffer := [⟨(10, 0), 1⟩], inOpen := false,
    accepted := [⟨(10, 0), 1⟩], delivered := [] }

/-- The state in which `DefaultSinglePool()` returns. -/
def singlePoolNew : PoolState :=
  { keepAliveTime := hour, awaitTime := 0, maxSize := 1, coreSize := 1,
    cancelled := false, sem := 0, disp := .boot 0, run := none, workers := [],
    relay := RelayState.init, handed := [], executed := [] }

/-- The single-worker pool once the dispatcher has started its worker and entered its
loop. -/
def singlePoolReady : PoolState :=
  { singlePoolNew with sem := 1, disp := .await, workers := [.idle] }

/-- The state in which `New(time.Minute, 0, 2, 1)` returns. -/
def elasticPoolNew : PoolState :=
  { keepAliveTime := minute, awaitTime := 0, maxSize := 2, coreSize := 1,
    cancelled := false, sem := 0, disp := .boot 0, run := none, workers := [],
    relay := RelayState.init, handed := [], executed := [] }

/-- The state in which `DefaultCachedPool()` returns. -/
def cachedPoolNew : PoolState :=
  { keepAliveTime := minute, awaitTime := 0, maxSize := 2147483647, coreSize := 0,
    cancelled := false, sem := 0, disp := .boot 0, run := none, workers := [],
    relay := RelayState.init, handed := [], executed := [] }

/-- A cached pool whose only worker executes item 7 while item 8 waits in the relay, at
the moment `Done` is called. -/
def cachedPoolShutdown : PoolState :=
  { cachedPoolNew with
    cancelled := true, sem := 1, disp := .await, run := some 7, workers := [.running (some 7)],
    relay := { loc := .inner, buffer := [⟨(8, 1), 0⟩], inOpen := true,
               accepted := [⟨(7, 0), 0⟩, ⟨(8, 1), 0⟩], delivered := [⟨(7, 0), 0⟩] },
    handed := [some 7] }

/-- A cached pool whose dispatcher started a worker at line 88 and is blocked on the
send of line 89, after which `Done` was called and the worker returned at line 104. -/
def cachedPoolBlocked : PoolState :=
  { cachedPoolNew with
    cancelled := true, sem := 0, disp := .handoff, run := some 7, workers := [.dead],
    relay := { loc := .outer, buffer := [], inOpen := true,
               accepted := [⟨(7, 0), 0⟩], delivered := [⟨(7, 0), 0⟩] } }

/-! ## `PushPriorityItem`: basic lemmas -/

section PushLemmas

variable {T : Type}

theorem scanInsert_eq_insertAfterGE (v : ChanItem T) :
    ∀ (l : List (ChanItem T)) (hne : l ≠ []), (l.getLast hne).Priority < v.Priority →
      scanInsert v l = insertAfterGE v l
  | [], hne, _ => absurd rfl hne
  | [e], _, h => by
    have h' : ¬ v.Priority ≤ e.Priority := by simpa using h
    simp [scanInsert, insertAfterGE, h']
  | e :: e' :: es, _, h => by
    have ih := scanInsert_eq_insertAfterGE v (e' :: es) (List.cons_ne_nil _ _)
      (by simpa [List.getLast_cons] using h)
    simp only [scanInsert, insertAfterGE] at ih ⊢
    split
    · rw [ih]
    · rfl

theorem insertAfterGE_of_all_ge (v : ChanItem T) :
    ∀ l : List (ChanItem T), (∀ e ∈ l, v.Priority ≤ e.Priority) → insertAfterGE v l = l ++ [v]
  | [], _ => rfl
  | e :: es, h => by
    have he : v.Priority ≤ e.Priority := h e (List.mem_cons_self _ _)
    have ih := insertAfterGE_of_all_ge v es (fun x hx => h x (List.mem_cons_of_mem _ hx))
    simp [insertAfterGE, he, ih]

theorem PrioSorted.getLast_le {l : List (ChanItem T)} (hs : PrioSorted l) (hne : l ≠ []) :
    ∀ e ∈ l, (l.getLast hne).Priority ≤ e.Priority := by
  induction l with
  | nil => exact absurd rfl hne
  | cons a t ih =>
    intro e he
    rcases t with _ | ⟨b, t⟩
    · simp at he; subst he; simp
    · have hs' := List.pairwise_cons.mp hs
      rw [List.getLast_cons (List.cons_ne_nil b t)]
      rcases List.mem_cons.mp he with rfl | he'
      · exact hs'.1 _ (List.getLast_mem _)
      · exact ih hs'.2 (List.cons_ne_nil b t) e he'

/-- On a sorted buffer `PushPriorityItem` is the reference insertion. -/
theorem PushPriorityItem_eq_insertAfterGE (ls : List (ChanItem T)) (v : ChanItem T)
    (hs : PrioSorted ls) : PushPriorityItem ls v = insertAfterGE v ls := by
  rcases ls with _ | ⟨front, rest⟩
  · rfl
  · unfold PushPriorityItem
    dsimp only
    split
    · rename_i h
      have h' : ¬ v.Priority ≤ front.Priority := by omega
      simp [insertAfterGE, h']
    · rename_i h
      have hf : v.Priority ≤ front.Priority := by omega
      split
      · rename_i hl
        rw [insertAfterGE_of_all_ge]
        intro e he
        exact le_trans hl (hs.getLast_le (List.cons_ne_nil _ _) e he)
      · rename_i hl
        rcases rest with _ | ⟨r, rs⟩
        · simp at hl; omega
        · have hl' : (List.getLast (r :: rs) (List.cons_ne_nil _ _)).Priority < v.Priority := by
            rw [List.getLast_cons (List.cons_ne_nil r rs)] at hl
            omega
          rw [scanInsert_eq_insertAfterGE v (r :: rs) (List.cons_ne_nil _ _) hl']
          conv_rhs => rw [insertAfterGE]
          simp [hf]

theorem insertAfterGE_perm (v : ChanItem T) :
    ∀ l : List (ChanItem T), (insertAfterGE v l).Perm (v :: l)
  | [] => List.Perm.refl _
  | e :: es => by
    simp only [insertAfterGE]
    split
    · exact ((insertAfterGE_perm v es).cons e).trans (List.Perm.swap v e es)
    · exact List.Perm.refl _

theorem insertAfterGE_sorted (v : ChanItem T) :
    ∀ l : List (ChanItem T), PrioSorted l → PrioSorted (insertAfterGE v l)
  | [], _ => List.pairwise_singleton _ _
  | e :: es, hs => by
    have hs' := List.pairwise_cons.mp hs
    simp only [insertAfterGE]
    split
    · rename_i h
      refine List.pairwise_cons.mpr ⟨?_, insertAfterGE_sorted v es hs'.2⟩
      intro x hx
      rcases List.mem_cons.mp ((insertAfterGE_perm v es).subset hx) with rfl | hx'
      · exact h
      · exact hs'.1 x hx'
    · rename_i h
      refine List.pairwise_cons.mpr ⟨?_, hs⟩
      intro x hx
      rcases List.mem_cons.mp hx with rfl | hx'
      · omega
      · have := hs'.1 x hx'
        omega

theorem insertAfterGE_filter (v : ChanItem T) (p : Int) :
    ∀ l : List (ChanItem T), PrioSorted l →
      (insertAfterGE v l).filter (fun a => decide (a.Priority = p))
        = (l ++ [v]).filter (fun a => decide (a.Priority = p))
  | [], _ => rfl
  | e :: es, hs => by
    have hs' := List.pairwise_cons.mp hs
    simp only [insertAfterGE]
    split
    · have ih := insertAfterGE_filter v p es hs'.2
      simp only [List.cons_append, List.filter_cons, ih]
    · rename_i h
      by_cases hv : v.Priority = p
      · have hall : ∀ x ∈ e :: es, ¬ x.Priority = p := by
          intro x hx
          rcases List.mem_cons.mp hx with rfl | hx'
          · omega
          · have := hs'.1 x hx'
            omega
        have hnil : (e :: es).filter (fun a => decide (a.Priority = p)) = [] := by
          rw [List.filter_eq_nil_iff]
          intro x hx
          simpa using hall x hx
        rw [List.filter_append, List.filter_cons, hnil]
        simp [hv]
      · rw [List.filter_append, List.filter_cons]
        simp [hv]

theorem pushAll_snoc (xs : List (ChanItem T)) (v : ChanItem T) :
    pushAll (xs ++ [v]) = PushPriorityItem (pushAll xs) v := by
  simp [pushAll, List.foldl_append]

theorem pushAll_sorted (xs : List (ChanItem T)) : PrioSorted (pushAll xs) := by
  induction xs using List.reverseRecOn with
  | nil => exact List.Pairwise.nil
  | append_singleton xs v ih =>
    rw [pushAll_snoc, PushPriorityItem_eq_insertAfterGE _ _ ih]
    exact insertAfterGE_sorted v _ ih

theorem pushAll_perm (xs : List (ChanItem T)) : (pushAll xs).Perm xs := by
  induction xs using List.reverseRecOn with
  | nil => exact List.Perm.refl _
  | append_singleton xs v ih =>
    rw [pushAll_snoc, PushPriorityItem_eq_insertAfterGE _ _ (pushAll_sorted xs)]
    refine (insertAfterGE_perm v _).trans ?_
    refine (List.Perm.cons v ih).trans ?_
    exact (List.perm_append_singleton v xs).symm

theorem pushAll_filter (xs : List (ChanItem T)) (p : Int) :
    (pushAll xs).filter (fun a => decide (a.Priority = p))
      = xs.filter (fun a => decide (a.Priority = p)) := by
  induction xs using List.reverseRecOn with
  | nil => rfl
  | append_singleton xs v ih =>
    rw [pushAll_snoc, PushPriorityItem_eq_insertAfterGE _ _ (pushAll_sorted xs),
      insertAfterGE_filter v p _ (pushAll_sorted xs), List.filter_append, ih,
      List.filter_append]

end PushLemmas

/-! ## The relay: invariants of the coordinator -/

section RelayLemmas

variable {T : Type}

/-- Whatever the buffer, sorted or not, `PushPriorityItem` adds exactly the new item. -/
theorem PushPriorityItem_perm (ls : List (ChanItem T)) (v : ChanItem T) :
    (PushPriorityItem ls v).Perm (v :: ls) := by
  rcases ls with _ | ⟨front, rest⟩
  · exact List.Perm.refl _
  · unfold PushPriorityItem
    dsimp only
    split
    · exact List.Perm.refl _
    · split
      · exact List.perm_append_singleton v (front :: rest)
      · rename_i hf hl
        rcases rest with _ | ⟨r, rs⟩
        · simp at hl; omega
        · have hl' : (List.getLast (r :: rs) (List.cons_ne_nil _ _)).Priority < v.Priority := by
            rw [List.getLast_cons (List.cons_ne_nil r rs)] at hl
            omega
          rw [scanInsert_eq_insertAfterGE v (r :: rs) (List.cons_ne_nil _ _) hl']
          exact ((insertAfterGE_perm v (r :: rs)).cons front).trans (List.Perm.swap v front _)

theorem PushPriorityItem_ne_nil (ls : List (ChanItem T)) (v : ChanItem T) :
    PushPriorityItem ls v ≠ [] := by
  intro h
  have := (PushPriorityItem_perm ls v).length_eq
  rw [h] at this
  simp at this

theorem prioSorted_of_ahead {l : List (ChanItem (T × Nat))} (h : l.Pairwise Ahead) :
    PrioSorted l := by
  refine List.Pairwise.imp ?_ h
  intro a b hab
  rcases hab with h1 | ⟨h1, _⟩ <;> omega

theorem insertAfterGE_ahead (v : ChanItem (T × Nat)) :
    ∀ l : List (ChanItem (T × Nat)), l.Pairwise Ahead → (∀ b ∈ l, b.Value.2 < v.Value.2) →
      (insertAfterGE v l).Pairwise Ahead
  | [], _, _ => List.pairwise_singleton _ _
  | e :: es, hs, hf => by
    have hs' := List.pairwise_cons.mp hs
    simp only [insertAfterGE]
    split
    · rename_i h
      refine List.pairwise_cons.mpr
        ⟨?_, insertAfterGE_ahead v es hs'.2 (fun b hb => hf b (List.mem_cons_of_mem _ hb))⟩
      intro x hx
      rcases List.mem_cons.mp ((insertAfterGE_perm v es).subset hx) with rfl | hx'
      · have := hf e (List.mem_cons_self _ _)
        rcases lt_or_eq_of_le h with h1 | h1
        · exact Or.inl h1
        · exact Or.inr ⟨h1, this⟩
      · exact hs'.1 x hx'
    · rename_i h
      refine List.pairwise_cons.mpr ⟨?_, hs⟩
      intro x hx
      have hve : e.Priority < v.Priority := by omega
      rcases List.mem_cons.mp hx with rfl | hx'
      · exact Or.inl hve
      · rcases hs'.1 x hx' with h1 | ⟨h1, _⟩
        · exact Or.inl (lt_trans h1 hve)
        · exact Or.inl (by omega)

theorem PushPriorityItem_ahead (ls : List (ChanItem (T × Nat))) (v : ChanItem (T × Nat))
    (hs : ls.Pairwise Ahead) (hf : ∀ b ∈ ls, b.Value.2 < v.Value.2) :
    (PushPriorityItem ls v).Pairwise Ahead := by
  rw [PushPriorityItem_eq_insertAfterGE ls v (prioSorted_of_ahead hs)]
  exact insertAfterGE_ahead v ls hs hf

theorem loopHead_cons (x : ChanItem (T × Nat)) (l : List (ChanItem (T × Nat))) :
    RelayState.loopHead (x :: l) = .inner := by
  simp [RelayState.loopHead]

theorem loopHead_of_ne_nil {l : List (ChanItem (T × Nat))} (h : l ≠ []) :
    RelayState.loopHead l = .inner := by
  rcases l with _ | ⟨x, l⟩
  · exact absurd rfl h
  · exact loopHead_cons x l

theorem RelayInv.init : RelayInv (RelayState.init : RelayState T) where
  atLoc := Or.inl rfl
  ordered := List.Pairwise.nil
  fresh := by intro b hb; simp [RelayState.init] at hb
  conserve := List.Perm.refl _
  stamps := rfl

theorem RelayInv.buffer_of_inner {s : RelayState T} (h : RelayInv s) (hl : s.loc = .inner) :
    s.buffer ≠ [] := by
  intro he
  rcases h.atLoc with h1 | ⟨h1, _⟩
  · rw [he] at h1
    rw [h1] at hl
    simp [RelayState.loopHead] at hl
  · rw [h1] at hl
    cases hl

theorem RelayInv.buffer_of_outer {s : RelayState T} (h : RelayInv s) (hl : s.loc = .outer) :
    s.buffer = [] := by
  rcases h.atLoc with h1 | ⟨h1, _⟩
  · rcases hb : s.buffer with _ | ⟨x, l⟩
    · rfl
    · rw [hb, loopHead_cons] at h1
      rw [h1] at hl
      cases hl
  · rw [h1] at hl
    cases hl

theorem relayInv_step {s s' : RelayState T} (a : RelayAction T) (h : RelayInv s)
    (hstep : s.step a = some s') : RelayInv s' := by
  cases a with
  | acceptDirect v =>
    simp only [RelayState.step] at hstep
    split at hstep
    · rename_i hc
      cases hstep
      have hb := h.buffer_of_outer hc.2
      refine ⟨h.atLoc, h.ordered, ?_, ?_, ?_⟩
      · intro b hb'
        simp only [hb] at hb'
        cases hb'
      · simp only [hb, List.append_nil]
        have := h.conserve
        simp only [hb, List.append_nil] at this
        exact List.Perm.append_right _ this
      · simp only [List.map_append, List.map_cons, List.map_nil, List.length_append,
          List.length_singleton, List.range_succ, h.stamps, RelayState.stamp]
    · cases hstep
  | acceptBuffer v =>
    simp only [RelayState.step] at hstep
    split at hstep
    · cases hstep
      refine ⟨Or.inl rfl, ?_, ?_, ?_, ?_⟩
      · exact PushPriorityItem_ahead _ _ h.ordered h.fresh
      · intro b hb
        simp only [List.length_append, List.length_singleton]
        rcases List.mem_cons.mp ((PushPriorityItem_perm _ _).subset hb) with rfl | hb'
        · simp [RelayState.stamp]
        · exact Nat.lt_succ_of_lt (h.fresh b hb')
      · refine (List.Perm.append_right _ h.conserve).trans ?_
        rw [List.append_assoc]
        refine List.Perm.append_left _ ?_
        exact (List.perm_append_singleton _ _).trans (PushPriorityItem_perm _ _).symm
      · simp only [List.map_append, List.map_cons, List.map_nil, List.length_append,
          List.length_singleton, List.range_succ, h.stamps, RelayState.stamp]
    · cases hstep
  | sendFront =>
    simp only [RelayState.step] at hstep
    split at hstep
    · split at hstep
      · cases hstep
      · rename_i x rest hb
        cases hstep
        have ho := h.ordered
        rw [hb] at ho
        refine ⟨Or.inl rfl, (List.pairwise_cons.mp ho).2, ?_, ?_, h.stamps⟩
        · intro b hb'
          exact h.fresh b (by rw [hb]; exact List.mem_cons_of_mem _ hb')
        · have := h.conserve
          rw [hb] at this
          simpa using this
    · cases hstep
  | closeIn =>
    simp only [RelayState.step] at hstep
    split at hstep
    · cases hstep
      refine ⟨?_, h.ordered, h.fresh, h.conserve, h.stamps⟩
      rcases h.atLoc with h1 | ⟨h1, h2, _⟩
      · exact Or.inl h1
      · exact Or.inr ⟨h1, h2, rfl⟩
    · cases hstep
  | seeClosed =>
    simp only [RelayState.step] at hstep
    split at hstep
    · rename_i hc
      split at hstep
      · rename_i hl
        cases hstep
        exact ⟨Or.inr ⟨rfl, h.buffer_of_outer hl, hc⟩, h.ordered, h.fresh, h.conserve, h.stamps⟩
      · cases hstep
        exact ⟨Or.inl rfl, h.ordered, h.fresh, h.conserve, h.stamps⟩
      · cases hstep
    · cases hstep

theorem RelayState.Reachable.inv {s : RelayState T} (h : RelayState.Reachable s) :
    RelayInv s := by
  induction h with
  | init => exact RelayInv.init
  | step a _ hstep ih => exact relayInv_step a ih hstep

theorem RelayState.Reachable.run {s s' : RelayState T} (h : RelayState.Reachable s) :
    ∀ (acts : List (RelayAction T)), s.run acts = some s' → RelayState.Reachable s' := by
  intro acts
  induction acts generalizing s with
  | nil =>
    intro hrun
    simp only [RelayState.run, Option.some.injEq] at hrun
    exact hrun ▸ h
  | cons a as ih =>
    intro hrun
    simp only [RelayState.run] at hrun
    rcases hs : s.step a with _ | s1
    · rw [hs] at hrun; cases hrun
    · rw [hs] at hrun
      exact ih (RelayState.Reachable.step a h hs) hrun

/-- Once `In` is closed, every run that reaches the point where `Out` is closed has
delivered the whole buffer, in buffer order. -/
theorem run_closed_delivers {s s' : RelayState T} (acts : List (RelayAction T)) :
    RelayInv s → s.inOpen = false → s.run acts = some s' → s'.loc = .done →
      s'.delivered = s.delivered ++ s.buffer ∧ s'.buffer = [] ∧ s'.accepted = s.accepted := by
  induction acts generalizing s with
  | nil =>
    intro hinv _ hrun hdone
    simp only [RelayState.run, Option.some.injEq] at hrun
    subst hrun
    rcases hinv.atLoc with h1 | ⟨_, h2, _⟩
    · rcases hb : s.buffer with _ | ⟨x, l⟩
      · simp
      · rw [hb, loopHead_cons] at h1
        rw [h1] at hdone
        cases hdone
    · simp [h2]
  | cons a as ih =>
    intro hinv hc hrun hdone
    simp only [RelayState.run] at hrun
    rcases hs : s.step a with _ | s1
    · rw [hs] at hrun; cases hrun
    · rw [hs] at hrun
      simp only [Option.some_bind] at hrun
      have hinv1 := relayInv_step a hinv hs
      cases a with
      | acceptDirect v => simp [RelayState.step, hc] at hs
      | acceptBuffer v => simp [RelayState.step, hc] at hs
      | closeIn => simp [RelayState.step, hc] at hs
      | sendFront =>
        simp only [RelayState.step] at hs
        split at hs
        · split at hs
          · cases hs
          · rename_i x rest hb
            cases hs
            have := ih hinv1 hc hrun hdone
            simp only [hb] at this ⊢
            simpa using this
        · cases hs
      | seeClosed =>
        rcases hl : s.loc with _ | _ | _
        · simp only [RelayState.step, hc, hl, if_true, Option.some.injEq] at hs
          subst hs
          have h := ih hinv1 rfl hrun hdone
          exact h
        · simp only [RelayState.step, hc, hl, if_true, Option.some.injEq] at hs
          subst hs
          have h := ih hinv1 rfl hrun hdone
          exact h
        · simp [RelayState.step, hc, hl] at hs

/-- Once `In` is closed the coordinator can deliver the whole buffer and then close `Out`. -/
theorem run_closed_drains (buf : List (ChanItem (T × Nat))) :
    ∀ (acc del : List (ChanItem (T × Nat))),
      RelayState.run { loc := RelayState.loopHead buf, buffer := buf, inOpen := false,
                       accepted := acc, delivered := del }
          (List.replicate buf.length RelayAction.sendFront ++ [RelayAction.seeClosed])
        = some { loc := .done, buffer := [], inOpen := false,
                 accepted := acc, delivered := del ++ buf } := by
  induction buf with
  | nil =>
    intro acc del
    simp [RelayState.run, RelayState.step, RelayState.loopHead]
  | cons x rest ih =>
    intro acc del
    have := ih acc (del ++ [x])
    simp only [List.append_assoc, List.singleton_append] at this
    simp [RelayState.run, RelayState.step, loopHead_cons, List.replicate_succ, this]

end RelayLemmas

/-! ## The coordinator statement by statement: conservation -/

section CoordLemmas

variable {T : Type}

theorem coordInv_init : CoordInv (CoordState.init : CoordState T) where
  conserve := List.Perm.refl _
  sent := by intro h; cases h
  stamps := rfl

theorem stamps_snoc (acc : List (ChanItem (T × Nat))) (v : ChanItem T)
    (h : acc.map (fun b => b.Value.2) = List.range acc.length) :
    (acc ++ [(⟨(v.Value, acc.length), v.Priority⟩ : ChanItem (T × Nat))]).map (fun b => b.Value.2)
      = List.range (acc ++ [(⟨(v.Value, acc.length), v.Priority⟩ : ChanItem (T × Nat))]).length := by
  simp only [List.map_append, List.map_cons, List.map_nil, List.length_append,
    List.length_singleton, List.range_succ, h]

theorem coordInv_step {s s' : CoordState T} (a : CoordAction T) (h : CoordInv s)
    (hstep : s.step a = some s') : CoordInv s' := by
  obtain ⟨hc, hs, hst⟩ := h
  cases a with
  | receive v =>
    simp only [CoordState.step] at hstep
    split at hstep
    · split at hstep
      · rename_i hl
        cases hstep
        simp only [CoordState.unsent, CoordState.inHand, hl, List.append_nil] at hc
        refine ⟨?_, (by intro h; cases h), stamps_snoc s.accepted v hst⟩
        simp only [CoordState.unsent, CoordState.inHand]
        exact List.Perm.append_right _ hc
      · rename_i hl
        cases hstep
        simp only [CoordState.unsent, CoordState.inHand, hl, List.append_nil] at hc
        refine ⟨?_, (by intro h; cases h), stamps_snoc s.accepted v hst⟩
        simp only [CoordState.unsent, CoordState.inHand]
        exact List.Perm.append_right _ hc
      · cases hstep
    · cases hstep
  | direct =>
    simp only [CoordState.step] at hstep
    split at hstep
    · rename_i x hl
      cases hstep
      simp only [CoordState.unsent, CoordState.inHand, hl] at hc
      refine ⟨?_, (by intro h; cases h), hst⟩
      simp only [CoordState.unsent, CoordState.inHand, List.append_nil]
      refine hc.trans ?_
      rw [List.append_assoc, List.append_assoc]
      exact List.Perm.append_left _ List.perm_append_comm
    · cases hstep
  | push =>
    simp only [CoordState.step] at hstep
    split at hstep
    · rename_i x hl
      cases hstep
      simp only [CoordState.unsent, CoordState.inHand, hl] at hc
      refine ⟨?_, (by intro h; cases h), hst⟩
      simp only [CoordState.unsent, CoordState.inHand, List.append_nil]
      refine hc.trans ?_
      rw [List.append_assoc]
      refine List.Perm.append_left _ ?_
      exact (List.perm_append_singleton x s.buffer).trans (PushPriorityItem_perm _ _).symm
    · rename_i x hl
      cases hstep
      simp only [CoordState.unsent, CoordState.inHand, hl] at hc
      refine ⟨?_, (by intro h; cases h), hst⟩
      simp only [CoordState.unsent, CoordState.inHand, List.append_nil]
      refine hc.trans ?_
      rw [List.append_assoc]
      refine List.Perm.append_left _ ?_
      exact (List.perm_append_singleton x s.buffer).trans (PushPriorityItem_perm _ _).symm
    · cases hstep
  | test =>
    simp only [CoordState.step] at hstep
    split at hstep
    · rename_i hl
      cases hstep
      simp only [CoordState.unsent, CoordState.inHand, hl] at hc
      by_cases hb : s.buffer.length > 0
      · refine ⟨?_, ?_, hst⟩
        · simpa [CoordState.unsent, CoordState.inHand, hb] using hc
        · intro h
          simp [hb] at h
      · refine ⟨?_, ?_, hst⟩
        · simpa [CoordState.unsent, CoordState.inHand, hb] using hc
        · intro h
          simp [hb] at h
    · cases hstep
  | send =>
    simp only [CoordState.step] at hstep
    split at hstep
    · rename_i x rest hl hb
      cases hstep
      simp only [CoordState.unsent, CoordState.inHand, hl, hb] at hc
      refine ⟨?_, ?_, hst⟩
      · simp only [CoordState.unsent, CoordState.inHand, hb, List.tail_cons]
        simpa using hc
      · intro _
        exact ⟨x, by simp [hb], by simp⟩
    · cases hstep
  | remove =>
    simp only [CoordState.step] at hstep
    split at hstep
    · rename_i hl
      cases hstep
      simp only [CoordState.unsent, CoordState.inHand, hl] at hc
      refine ⟨?_, (by intro h; cases h), hst⟩
      simp only [CoordState.unsent, CoordState.inHand]
      exact hc
    · cases hstep
  | closeIn =>
    simp only [CoordState.step] at hstep
    split at hstep
    · cases hstep
      exact ⟨hc, hs, hst⟩
    · cases hstep
  | seeClosed =>
    simp only [CoordState.step] at hstep
    split at hstep
    · split at hstep
      · rename_i hl
        cases hstep
        simp only [CoordState.unsent, CoordState.inHand, hl] at hc
        exact ⟨by simpa [CoordState.unsent, CoordState.inHand] using hc, (by intro h; cases h), hst⟩
      · rename_i hl
        cases hstep
        simp only [CoordState.unsent, CoordState.inHand, hl] at hc
        exact ⟨by simpa [CoordState.unsent, CoordState.inHand] using hc, (by intro h; cases h), hst⟩
      · cases hstep
    · cases hstep

theorem coordInv_of_reachable {s : CoordState T} (h : CoordState.Reachable s) : CoordInv s := by
  induction h with
  | init => exact coordInv_init
  | step a _ hstep ih => exact coordInv_step a ih hstep

theorem coord_reachable_of_run {s s' : CoordState T} (h : CoordState.Reachable s) :
    ∀ (acts : List (CoordAction T)), s.run acts = some s' → CoordState.Reachable s' := by
  intro acts
  induction acts generalizing s with
  | nil =>
    intro hrun
    simp only [CoordState.run, Option.some.injEq] at hrun
    exact hrun ▸ h
  | cons a as ih =>
    intro hrun
    simp only [CoordState.run] at hrun
    rcases hs : s.step a with _ | s1
    · rw [hs] at hrun; cases hrun
    · rw [hs] at hrun
      exact ih (CoordState.Reachable.step a h hs) hrun

theorem coordHolding_reachable : coordHolding.Reachable :=
  coord_reachable_of_run CoordState.Reachable.init [.receive ⟨10, 1⟩] (by decide)

theorem coordSent_reachable : coordSent.Reachable :=
  coord_reachable_of_run CoordState.Reachable.init
    [.receive ⟨10, 1⟩, .push, .test, .send] (by decide)

end CoordLemmas

/-! ## The pool: invariants -/

section PoolLemmas

theorem countP_set_add {α : Type} (p : α → Bool) :
    ∀ (l : List α) (w : Nat) (old new : α), l[w]? = some old →
      (l.set w new).countP p + (if p old = true then 1 else 0)
        = l.countP p + (if p new = true then 1 else 0)
  | [], w, old, new, h => by simp at h
  | x :: l, 0, old, new, h => by
    simp only [List.getElem?_cons_zero, Option.some.injEq] at h
    subst h
    simp only [List.set_cons_zero, List.countP_cons]
    omega
  | x :: l, w + 1, old, new, h => by
    simp only [List.getElem?_cons_succ] at h
    have ih := countP_set_add p l w old new h
    simp only [List.set_cons_succ, List.countP_cons]
    omega

theorem alive_set (s : PoolState) (w : Nat) (old new : WorkerLoc)
    (h : s.workers[w]? = some old) (ho : old.isAlive = true) (hn : new.isAlive = true) :
    (s.workers.set w new).countP WorkerLoc.isAlive = s.alive := by
  have := countP_set_add WorkerLoc.isAlive s.workers w old new h
  simp only [ho, hn, if_true] at this
  unfold PoolState.alive
  omega

theorem alive_set_dead (s : PoolState) (w : Nat) (old : WorkerLoc)
    (h : s.workers[w]? = some old) (ho : old.isAlive = true) :
    (s.workers.set w .dead).countP WorkerLoc.isAlive + 1 = s.alive := by
  have := countP_set_add WorkerLoc.isAlive s.workers w old .dead h
  have hd : WorkerLoc.dead.isAlive = false := rfl
  simp only [ho, hd, if_true, Bool.false_eq_true, if_false] at this
  unfold PoolState.alive
  omega

theorem alive_append_idle (s : PoolState) :
    (s.workers ++ [WorkerLoc.idle]).countP WorkerLoc.isAlive = s.alive + 1 := by
  simp [PoolState.alive, List.countP_append, WorkerLoc.isAlive]

/-- The effect of one action on the limiter and on the set of alive workers: nothing, or
a slot reserved below the capacity together with a worker started, or a slot released
together with a worker finished. -/
theorem PoolState.step_sem_alive {s s' : PoolState} {a : PoolAction}
    (hstep : s.step a = some s') :
    s'.maxSize = s.maxSize ∧ s'.coreSize = s.coreSize
    ∧ ((s'.sem = s.sem ∧ s'.alive = s.alive)
      ∨ (s'.sem = s.sem + 1 ∧ s'.alive = s.alive + 1 ∧ (s.sem : Int) < s.maxSize)
      ∨ (s'.sem + 1 = s.sem ∧ s'.alive + 1 = s.alive)) := by
  cases a with
  | done => simp only [PoolState.step, Option.some.injEq] at hstep; subst hstep; simp [PoolState.alive]
  | execute f prio direct =>
    simp only [PoolState.step] at hstep
    repeat' split at hstep
    all_goals (cases hstep <;> simp [PoolState.alive])
  | relaySeeClosed =>
    simp only [PoolState.step] at hstep
    repeat' split at hstep
    all_goals (cases hstep <;> simp [PoolState.alive])
  | spawnCore =>
    simp only [PoolState.step] at hstep
    split at hstep
    · split at hstep
      · rename_i hc
        simp only [Option.some.injEq] at hstep
        subst hstep
        exact ⟨rfl, rfl, Or.inr (Or.inl ⟨rfl, alive_append_idle s, hc.2⟩)⟩
      · cases hstep
    · cases hstep
  | enterLoop =>
    simp only [PoolState.step] at hstep
    repeat' split at hstep
    all_goals (cases hstep <;> simp [PoolState.alive])
  | awaitCancel =>
    simp only [PoolState.step] at hstep
    repeat' split at hstep
    all_goals (cases hstep <;> simp [PoolState.alive])
  | awaitRecv =>
    simp only [PoolState.step] at hstep
    repeat' split at hstep
    all_goals (cases hstep <;> simp [PoolState.alive])
  | pushCancel =>
    simp only [PoolState.step] at hstep
    repeat' split at hstep
    all_goals (cases hstep <;> simp [PoolState.alive])
  | pushHand w =>
    simp only [PoolState.step, PoolState.hand] at hstep
    split at hstep
    · split at hstep
      · rename_i hw
        simp only [Option.some.injEq] at hstep
        subst hstep
        exact ⟨rfl, rfl, Or.inl ⟨rfl, alive_set s w _ _ hw rfl rfl⟩⟩
      · cases hstep
    · cases hstep
  | pushTimeout =>
    simp only [PoolState.step] at hstep
    split at hstep
    · split at hstep
      · rename_i hc
        simp only [Option.some.injEq] at hstep
        subst hstep
        exact ⟨rfl, rfl, Or.inr (Or.inl ⟨rfl, alive_append_idle s, hc⟩)⟩
      · simp only [Option.some.injEq] at hstep
        subst hstep
        exact ⟨rfl, rfl, Or.inl ⟨rfl, rfl⟩⟩
    · cases hstep
  | handoff w =>
    simp only [PoolState.step, PoolState.hand] at hstep
    split at hstep
    · split at hstep
      · rename_i hw
        simp only [Option.some.injEq] at hstep
        subst hstep
        exact ⟨rfl, rfl, Or.inl ⟨rfl, alive_set s w _ _ hw rfl rfl⟩⟩
      · cases hstep
    · cases hstep
  | drainCheck =>
    simp only [PoolState.step] at hstep
    repeat' split at hstep
    all_goals (cases hstep <;> simp [PoolState.alive])
  | drainRecv =>
    simp only [PoolState.step] at hstep
    repeat' split at hstep
    all_goals (cases hstep <;> simp [PoolState.alive])
  | workerCancel w =>
    simp only [PoolState.step] at hstep
    split at hstep
    · rename_i hc
      simp only [Option.some.injEq] at hstep
      subst hstep
      exact ⟨rfl, rfl, Or.inl ⟨rfl, alive_set s w _ _ hc.1 rfl rfl⟩⟩
    · cases hstep
  | workerFinish w =>
    simp only [PoolState.step] at hstep
    split at hstep
    · rename_i f hw
      simp only [Option.some.injEq] at hstep
      subst hstep
      exact ⟨rfl, rfl, Or.inl ⟨rfl, alive_set s w _ _ hw rfl rfl⟩⟩
    · cases hstep
  | workerIdle w =>
    simp only [PoolState.step] at hstep
    split at hstep
    · rename_i hw
      split at hstep
      · simp only [Option.some.injEq] at hstep
        subst hstep
        exact ⟨rfl, rfl, Or.inl ⟨rfl, alive_set s w _ _ hw rfl rfl⟩⟩
      · simp only [Option.some.injEq] at hstep
        subst hstep
        exact ⟨rfl, rfl, Or.inl ⟨rfl, rfl⟩⟩
    · cases hstep
  | workerRelease w =>
    simp only [PoolState.step] at hstep
    split at hstep
    · rename_i hc
      simp only [Option.some.injEq] at hstep
      subst hstep
      refine ⟨rfl, rfl, Or.inr (Or.inr ⟨?_, alive_set_dead s w _ hc.1 rfl⟩)⟩
      have := hc.2
      simp only
      omega
    · cases hstep

/-- What holds in every reachable state of a pool. -/
theorem PoolState.Reachable.sem_inv {s : PoolState} (h : PoolState.Reachable s) :
    s.sem = s.alive ∧ (s.sem : Int) ≤ s.maxSize ∧ s.coreSize ≤ s.maxSize := by
  induction h with
  | init k a m c hnew =>
    unfold New at hnew
    split at hnew
    · cases hnew
    · split at hnew
      · cases hnew
      · simp only [Except.ok.injEq] at hnew
        subst hnew
        simp only [PoolState.alive, List.countP_nil, Nat.cast_zero, true_and]
        omega
  | step a _ hstep ih =>
    have := PoolState.step_sem_alive hstep
    omega

theorem PoolState.Reachable.exec {s s' : PoolState} (h : PoolState.Reachable s) :
    ∀ (acts : List PoolAction), s.exec acts = some s' → PoolState.Reachable s' := by
  intro acts
  induction acts generalizing s with
  | nil =>
    intro hrun
    simp only [PoolState.exec, Option.some.injEq] at hrun
    exact hrun ▸ h
  | cons a as ih =>
    intro hrun
    simp only [PoolState.exec] at hrun
    rcases hs : s.step a with _ | s1
    · rw [hs] at hrun; cases hrun
    · rw [hs] at hrun
      exact ih (PoolState.Reachable.step a h hs) hrun

theorem PoolState.SerialReachable.reachable {s : PoolState} (h : s.SerialReachable) :
    s.Reachable := by
  induction h with
  | init k a m c hnew => exact PoolState.Reachable.init k a m c hnew
  | step a _ _ hstep ih => exact PoolState.Reachable.step a ih hstep

theorem countP_pos_of_getElem? {α : Type} (p : α → Bool) (l : List α) (w : Nat) (x : α)
    (h : l[w]? = some x) (hp : p x = true) : 0 < l.countP p := by
  rw [List.countP_pos_iff]
  exact ⟨x, List.getElem?_mem h, hp⟩

theorem leaving_set (s : PoolState) (w : Nat) (old new : WorkerLoc)
    (h : s.workers[w]? = some old) :
    (s.workers.set w new).countP WorkerLoc.isLeaving + (if old.isLeaving = true then 1 else 0)
      = s.leavingCount + (if new.isLeaving = true then 1 else 0) :=
  countP_set_add WorkerLoc.isLeaving s.workers w old new h

theorem leaving_append_idle (s : PoolState) :
    (s.workers ++ [WorkerLoc.idle]).countP WorkerLoc.isLeaving = s.leavingCount := by
  simp [PoolState.leavingCount, List.countP_append, WorkerLoc.isLeaving]

theorem floorInv_step {s s' : PoolState} {a : PoolAction} (hsa : s.sem = s.alive)
    (hJ : FloorInv s) (hser : ∀ w, a = .workerIdle w → s.leavingCount = 0)
    (hstep : s.step a = some s') : FloorInv s' := by
  cases a with
  | done =>
    simp only [PoolState.step, Option.some.injEq] at hstep
    subst hstep
    intro hc
    cases hc
  | execute f prio direct =>
    simp only [PoolState.step] at hstep
    repeat' split at hstep
    all_goals first
      | (cases hstep; done)
      | (cases hstep
         rename_i hd
         intro hc
         have := hJ hc
         simp only [PoolState.provided, hd, PoolState.leavingCount] at this ⊢
         refine ⟨this.1, ?_⟩
         intro i hi
         cases hi)
      | (cases hstep
         exact hJ)
  | relaySeeClosed =>
    simp only [PoolState.step] at hstep
    repeat' split at hstep
    all_goals first
      | (cases hstep; done)
      | (cases hstep
         exact hJ)
  | spawnCore =>
    simp only [PoolState.step] at hstep
    split at hstep
    · rename_i i hd
      split at hstep
      · rename_i hc'
        cases hstep
        intro hc
        have := hJ hc
        have hl := leaving_append_idle s
        simp only [PoolState.provided, hd, PoolState.leavingCount] at this hl ⊢
        refine ⟨by rw [hl]; push_cast; omega, ?_⟩
        intro j hj
        cases hj
        right
        push_cast
        omega
      · cases hstep
    · cases hstep
  | enterLoop =>
    simp only [PoolState.step] at hstep
    split at hstep
    · rename_i i hd
      split at hstep
      · cases hstep
      · rename_i hc'
        cases hstep
        intro hc
        have := hJ hc
        simp only [PoolState.provided, hd, PoolState.leavingCount] at this ⊢
        refine ⟨by omega, ?_⟩
        intro j hj
        cases hj
    · cases hstep
  | awaitCancel =>
    simp only [PoolState.step] at hstep
    split at hstep
    · rename_i hc'
      cases hstep
      intro hc
      simp only at hc
      rw [hc] at hc'
      exact absurd hc'.2 (by decide)
    · cases hstep
  | awaitRecv =>
    simp only [PoolState.step] at hstep
    split at hstep
    · rename_i hd
      repeat' split at hstep
      all_goals first
        | (cases hstep; done)
        | (cases hstep
           intro hc
           have := hJ hc
           simp only [PoolState.provided, hd, PoolState.leavingCount] at this ⊢
           refine ⟨this.1, ?_⟩
           intro i hi
           cases hi)
    · cases hstep
  | pushCancel =>
    simp only [PoolState.step] at hstep
    split at hstep
    · rename_i hc'
      split at hstep
      · cases hstep
        intro hc
        simp only at hc
        rw [hc] at hc'
        exact absurd hc'.2 (by decide)
      · cases hstep
    · cases hstep
  | pushHand w =>
    simp only [PoolState.step, PoolState.hand] at hstep
    split at hstep
    · rename_i hd
      split at hstep
      · rename_i hw
        cases hstep
        intro hc
        have := hJ hc
        have hl := leaving_set s w _ (.running s.run) hw
        simp only [PoolState.provided, hd, PoolState.leavingCount, WorkerLoc.isLeaving] at this hl ⊢
        refine ⟨by simp only [Bool.false_eq_true, if_false, Nat.add_zero] at hl; rw [hl]; exact this.1, ?_⟩
        intro i hi
        cases hi
      · cases hstep
    · cases hstep
  | pushTimeout =>
    simp only [PoolState.step] at hstep
    split at hstep
    · rename_i hd
      split at hstep
      · cases hstep
        intro hc
        have := hJ hc
        have hl := leaving_append_idle s
        simp only [PoolState.provided, hd, PoolState.leavingCount] at this hl ⊢
        refine ⟨by rw [hl]; push_cast; omega, ?_⟩
        intro i hi
        cases hi
      · cases hstep
        exact hJ
    · cases hstep
  | handoff w =>
    simp only [PoolState.step, PoolState.hand] at hstep
    split at hstep
    · rename_i hd
      split at hstep
      · rename_i hw
        cases hstep
        intro hc
        have := hJ hc
        have hl := leaving_set s w _ (.running s.run) hw
        simp only [PoolState.provided, hd, PoolState.leavingCount, WorkerLoc.isLeaving] at this hl ⊢
        refine ⟨by simp only [Bool.false_eq_true, if_false, Nat.add_zero] at hl; rw [hl]; exact this.1, ?_⟩
        intro i hi
        cases hi
      · cases hstep
    · cases hstep
  | drainCheck =>
    simp only [PoolState.step] at hstep
    split at hstep
    · rename_i hd
      repeat' split at hstep
      all_goals first
        | (cases hstep; done)
        | (cases hstep
           intro hc
           have := hJ hc
           simp only [PoolState.provided, hd, PoolState.leavingCount] at this ⊢
           refine ⟨this.1, ?_⟩
           intro i hi
           cases hi)
    · cases hstep
  | drainRecv =>
    simp only [PoolState.step] at hstep
    split at hstep
    · rename_i hd
      repeat' split at hstep
      all_goals first
        | (cases hstep; done)
        | (cases hstep
           intro hc
           have := hJ hc
           simp only [PoolState.provided, hd, PoolState.leavingCount] at this ⊢
           refine ⟨this.1, ?_⟩
           intro i hi
           cases hi)
    · cases hstep
  | workerCancel w =>
    simp only [PoolState.step] at hstep
    split at hstep
    · rename_i hc'
      cases hstep
      intro hc
      simp only at hc
      rw [hc] at hc'
      exact absurd hc'.2 (by decide)
    · cases hstep
  | workerFinish w =>
    simp only [PoolState.step] at hstep
    split at hstep
    · rename_i f hw
      cases hstep
      intro hc
      have := hJ hc
      have hl := leaving_set s w _ .idle hw
      simp only [PoolState.provided, PoolState.leavingCount, WorkerLoc.isLeaving,
        Bool.false_eq_true, if_false, Nat.add_zero] at this hl ⊢
      rw [hl]
      exact this
    · cases hstep
  | workerIdle w =>
    simp only [PoolState.step] at hstep
    split at hstep
    · rename_i hw
      split at hstep
      · rename_i hgt
        cases hstep
        intro hc
        have := hJ hc
        have hl := leaving_set s w _ .leaving hw
        have h0 := hser w rfl
        have hpos := countP_pos_of_getElem? WorkerLoc.isAlive s.workers w _ hw rfl
        simp only [PoolState.provided, PoolState.leavingCount, PoolState.alive, WorkerLoc.isLeaving,
          Bool.false_eq_true, if_false, if_true, Nat.add_zero] at this hl h0 hsa hpos ⊢
        rw [hl, h0]
        refine ⟨?_, this.2⟩
        cases hd : s.disp with
        | boot i =>
          simp only [hd] at this ⊢
          rcases this.2 i rfl with h1 | h1 <;> push_cast <;> omega
        | _ =>
          simp only [hd] at this ⊢
          push_cast
          omega
      · cases hstep
        exact hJ
    · cases hstep
  | workerRelease w =>
    simp only [PoolState.step] at hstep
    split at hstep
    · rename_i hc'
      cases hstep
      intro hc
      have := hJ hc
      have hl := leaving_set s w _ .dead hc'.1
      have hpos := hc'.2
      simp only [PoolState.provided, PoolState.leavingCount, WorkerLoc.isLeaving,
        Bool.false_eq_true, if_false, if_true, Nat.add_zero] at this hl ⊢
      refine ⟨?_, this.2⟩
      have h1 := this.1
      omega
    · cases hstep

theorem PoolState.SerialReachable.floor {s : PoolState} (h : s.SerialReachable) :
    FloorInv s := by
  induction h with
  | init k a m c hnew =>
    unfold New at hnew
    split at hnew
    · cases hnew
    · split at hnew
      · cases hnew
      · cases hnew
        intro _
        simp [PoolState.provided, PoolState.leavingCount]
  | step a hs hser hstep ih => exact floorInv_step hs.reachable.sem_inv.1 ih hser hstep

theorem not_dead_of_all_dead {l : List WorkerLoc} {w : Nat} {x : WorkerLoc}
    (hall : ∀ v ∈ l, v = WorkerLoc.dead) (h : l[w]? = some x) (hx : x ≠ .dead) : False :=
  hx (hall x (List.getElem?_mem h))

/-- A dispatcher blocked on the send of line 89 while every worker has finished stays
there whatever happens next: only a worker at line 105 can complete that send, and
only the dispatcher starts workers. -/
theorem handoff_stuck {s s' : PoolState} {a : PoolAction} (hd : s.disp = .handoff)
    (hw : ∀ v ∈ s.workers, v = WorkerLoc.dead) (hstep : s.step a = some s') :
    s'.disp = .handoff ∧ ∀ v ∈ s'.workers, v = WorkerLoc.dead := by
  cases a with
  | done => cases hstep; exact ⟨hd, hw⟩
  | execute f prio direct =>
    have h1 : ¬ s.disp = .await := by rw [hd]; decide
    have h2 : ¬ s.disp = .drainRecv := by rw [hd]; decide
    simp only [PoolState.step, if_neg h1, if_neg h2] at hstep
    repeat' split at hstep
    all_goals first
      | (cases hstep; done)
      | (cases hstep; exact ⟨hd, hw⟩)
  | relaySeeClosed =>
    simp only [PoolState.step] at hstep
    repeat' split at hstep
    all_goals first
      | (cases hstep; done)
      | (cases hstep; exact ⟨hd, hw⟩)
  | spawnCore => simp [PoolState.step, hd] at hstep
  | enterLoop => simp [PoolState.step, hd] at hstep
  | awaitCancel => simp [PoolState.step, hd] at hstep
  | awaitRecv => simp [PoolState.step, hd] at hstep
  | pushCancel => simp [PoolState.step, hd] at hstep
  | pushHand w => simp [PoolState.step, hd] at hstep
  | pushTimeout => simp [PoolState.step, hd] at hstep
  | handoff w =>
    simp only [PoolState.step, PoolState.hand, if_pos hd] at hstep
    split at hstep
    · rename_i h
      exact (not_dead_of_all_dead hw h (by simp)).elim
    · cases hstep
  | drainCheck => simp [PoolState.step, hd] at hstep
  | drainRecv => simp [PoolState.step, hd] at hstep
  | workerCancel w =>
    simp only [PoolState.step] at hstep
    split at hstep
    · rename_i h
      exact (not_dead_of_all_dead hw h.1 (by simp)).elim
    · cases hstep
  | workerFinish w =>
    simp only [PoolState.step] at hstep
    split at hstep
    · rename_i f h
      exact (not_dead_of_all_dead hw h (by simp)).elim
    · cases hstep
  | workerIdle w =>
    simp only [PoolState.step] at hstep
    split at hstep
    · rename_i h
      exact (not_dead_of_all_dead hw h (by simp)).elim
    · cases hstep
  | workerRelease w =>
    simp only [PoolState.step] at hstep
    split at hstep
    · rename_i h
      exact (not_dead_of_all_dead hw h.1 (by simp)).elim
    · cases hstep

theorem handoff_stuck_exec {s s' : PoolState} (acts : List PoolAction) :
    s.disp = .handoff → (∀ v ∈ s.workers, v = WorkerLoc.dead) → s.exec acts = some s' →
      s'.disp = .handoff ∧ ∀ v ∈ s'.workers, v = WorkerLoc.dead := by
  induction acts generalizing s with
  | nil =>
    intro hd hw hrun
    simp only [PoolState.exec, Option.some.injEq] at hrun
    subst hrun
    exact ⟨hd, hw⟩
  | cons a as ih =>
    intro hd hw hrun
    simp only [PoolState.exec] at hrun
    rcases hs : s.step a with _ | s1
    · rw [hs] at hrun; cases hrun
    · rw [hs] at hrun
      have h1 := handoff_stuck hd hw hs
      exact ih h1.1 h1.2 hrun

/-- The ghost log of the rendezvous only grows, by the dispatcher's variable `run`. -/
theorem handed_step {s s' : PoolState} {a : PoolAction} (hstep : s.step a = some s') :
    s'.handed = s.handed ∨ s'.handed = s.handed ++ [s.run] := by
  cases a <;> simp only [PoolState.step, PoolState.hand] at hstep <;>
    repeat' split at hstep
  all_goals first
    | (cases hstep; done)
    | (cases hstep; exact Or.inl rfl)
    | (cases hstep; exact Or.inr rfl)

theorem handed_exec {s s' : PoolState} (acts : List PoolAction) :
    s.exec acts = some s' → ∃ rest, s'.handed = s.handed ++ rest := by
  induction acts generalizing s with
  | nil =>
    intro hrun
    simp only [PoolState.exec, Option.some.injEq] at hrun
    subst hrun
    exact ⟨[], by simp⟩
  | cons a as ih =>
    intro hrun
    simp only [PoolState.exec] at hrun
    rcases hs : s.step a with _ | s1
    · rw [hs] at hrun; cases hrun
    · rw [hs] at hrun
      obtain ⟨rest, hrest⟩ := ih hrun
      rcases handed_step hs with h | h
      · exact ⟨rest, by rw [hrest, h]⟩
      · exact ⟨s.run :: rest, by rw [hrest, h]; simp⟩

/-- While the dispatcher is blocked on the send of line 89 its variable `run` does not
change and nothing goes through the rendezvous, until that send completes. -/
theorem handoff_wait_step {s s' : PoolState} {a : PoolAction} (hd : s.disp = .handoff)
    (hstep : s.step a = some s') :
    (s'.disp = .handoff ∧ s'.run = s.run ∧ s'.handed = s.handed)
    ∨ s'.handed = s.handed ++ [s.run] := by
  have h1 : ¬ s.disp = .await := by rw [hd]; decide
  have h2 : ¬ s.disp = .drainRecv := by rw [hd]; decide
  have h3 : ¬ s.disp = .pushTask := by rw [hd]; decide
  have h4 : ¬ s.disp = .drain := by rw [hd]; decide
  cases a <;>
    simp only [PoolState.step, PoolState.hand, if_neg h1, if_neg h2, if_neg h3, if_neg h4,
      h1, h2, h3, h4, false_and, if_false] at hstep <;>
    repeat' split at hstep
  all_goals first
    | (cases hstep; done)
    | (cases hstep; exact Or.inl ⟨hd, rfl, rfl⟩)
    | (cases hstep; exact Or.inr rfl)
    | (exfalso; rename_i hi _; rw [hd] at hi; cases hi)

theorem handoff_wait_exec {s s' : PoolState} (acts : List PoolAction) :
    s.disp = .handoff → s.exec acts = some s' →
      (s'.disp = .handoff ∧ s'.run = s.run ∧ s'.handed = s.handed)
      ∨ ∃ rest, s'.handed = s.handed ++ s.run :: rest := by
  induction acts generalizing s with
  | nil =>
    intro hd hrun
    simp only [PoolState.exec, Option.some.injEq] at hrun
    subst hrun
    exact Or.inl ⟨hd, rfl, rfl⟩
  | cons a as ih =>
    intro hd hrun
    simp only [PoolState.exec] at hrun
    rcases hs : s.step a with _ | s1
    · rw [hs] at hrun; cases hrun
    · rw [hs] at hrun
      simp only [Option.some_bind] at hrun
      rcases handoff_wait_step hd hs with ⟨hd1, hr1, hh1⟩ | h
      · rcases ih hd1 hrun with ⟨a1, a2, a3⟩ | ⟨rest, hrest⟩
        · exact Or.inl ⟨a1, by rw [a2, hr1], by rw [a3, hh1]⟩
        · exact Or.inr ⟨rest, by rw [hrest, hh1, hr1]⟩
      · obtain ⟨rest, hrest⟩ := handed_exec as hrun
        exact Or.inr ⟨rest, by rw [hrest, h]; simp⟩

end PoolLemmas

/-! ## The cache: sizes of the two lists -/

section CacheSizeLemmas

open twoQueues

variable {V : Type}

theorem lookup_some {l : List (entry V)} {key : String} {e : entry V}
    (h : lookup l key = some e) : e ∈ l ∧ e.key = key := by
  unfold lookup at h
  exact ⟨List.mem_of_find?_eq_some h, by simpa using List.find?_some h⟩

theorem lookup_eq_none_iff {l : List (entry V)} {key : String} :
    lookup l key = none ↔ key ∉ l.map entry.key := by
  unfold lookup
  rw [List.find?_eq_none]
  simp only [beq_iff_eq, List.mem_map, not_exists, not_and]

theorem remove_length {l : List (entry V)} {key : String} {e : entry V}
    (h : lookup l key = some e) : (remove l key).length + 1 = l.length := by
  have h1 := lookup_some h
  have hpos : 0 < l.length := List.length_pos_of_mem h1.1
  unfold remove
  rw [List.length_eraseP_of_mem h1.1 (by simp [h1.2])]
  omega

theorem remove_length_le (l : List (entry V)) (key : String) :
    (remove l key).length ≤ l.length :=
  (List.eraseP_sublist l).length_le

theorem setValue_length (l : List (entry V)) (key : String) (value : V) :
    (setValue l key value).length = l.length := by
  induction l with
  | nil => rfl
  | cons e es ih =>
    simp only [setValue]
    split <;> simp [ih]

theorem evict_length_le (l : List (entry V)) (m : Int)
    (h : (l.length : Int) ≤ max m 0 + 1) : ((evict l m).length : Int) ≤ max m 0 := by
  unfold evict
  split
  · rw [List.length_dropLast]
    rcases Nat.eq_zero_or_pos l.length with h0 | h0
    · rw [h0]
      simp
    · have : ((l.length - 1 : Nat) : Int) = (l.length : Int) - 1 := by omega
      rw [this]
      omega
  · rename_i hgt
    have := le_max_left m 0
    omega

theorem get_limits (sh : cacheShard V) (key : String) :
    (sh.get key).2.maxShardSize = sh.maxShardSize
    ∧ (sh.get key).2.maxHistorySize = sh.maxHistorySize := by
  unfold cacheShard.get
  split
  · exact ⟨rfl, rfl⟩
  · split <;> exact ⟨rfl, rfl⟩

theorem set_limits (sh : cacheShard V) (key : String) (value : V) :
    (sh.set key value).maxShardSize = sh.maxShardSize
    ∧ (sh.set key value).maxHistorySize = sh.maxHistorySize := by
  unfold cacheShard.set
  split
  · exact ⟨rfl, rfl⟩
  · split <;> exact ⟨rfl, rfl⟩

theorem get_bound (sh : cacheShard V) (key : String) (h : ShardBound sh) :
    ShardBound (sh.get key).2 := by
  unfold ShardBound at h ⊢
  unfold cacheShard.get
  split
  · rename_i e he
    have := remove_length he
    simp only [List.length_cons]
    refine ⟨?_, h.2⟩
    omega
  · split
    · rename_i e he
      have := remove_length he
      refine ⟨?_, ?_⟩
      · apply evict_length_le
        simp only [List.length_cons]
        push_cast
        omega
      · simp only
        omega
    · exact h

theorem set_bound (sh : cacheShard V) (key : String) (value : V) (h : ShardBound sh) :
    ShardBound (sh.set key value) := by
  unfold ShardBound at h ⊢
  unfold cacheShard.set
  split
  · simp only [setValue_length]
    exact h
  · split
    · rename_i e he
      have := remove_length he
      refine ⟨?_, ?_⟩
      · simp only
        omega
      · apply evict_length_le
        simp only [List.length_cons]
        push_cast
        omega
    · refine ⟨h.1, ?_⟩
      apply evict_length_le
      simp only [List.length_cons]
      push_cast
      omega

theorem wrapInt64_le {x : Int} (h : 0 ≤ x) : wrapInt64 x ≤ x := by
  unfold wrapInt64
  omega

theorem wrapInt64_eq {x : Int} (h : 0 ≤ x) (h2 : x ≤ maxInt64) : wrapInt64 x = x := by
  unfold wrapInt64
  unfold maxInt64 at h2
  omega

theorem shardIndex_lt {ca : Cache V} {n : Nat} (hm : ca.shardMask + 1 = n)
    (hl : ca.shard.length = n) (k : String) : ca.shardIndex k < ca.shard.length := by
  unfold Cache.shardIndex
  split
  · omega
  · have := @Nat.and_le_right (ca.seed k % 2 ^ 64) ca.shardMask
    omega

theorem New_ok {seed : String → Nat} {maxCacheSize : Int} {shards : Nat} {ca : Cache V}
    (h : twoQueues.New seed maxCacheSize shards = .ok ca) :
    (shards = 1 ∨ shards % 2 = 0) ∧ shards < 2 ^ 63
    ∧ ca = { seed := seed, shardMask := (shards + 2 ^ 64 - 1) % 2 ^ 64,
             shard := List.replicate shards (newShard maxCacheSize shards) } := by
  unfold twoQueues.New at h
  split at h
  · cases h
  · rename_i h1
    split at h
    · cases h
    · rename_i h2
      cases h
      rw [Nat.and_one_is_mod] at h1
      refine ⟨?_, by omega, rfl⟩
      by_cases h3 : shards = 1
      · exact Or.inl h3
      · right
        have := not_and.mp h1 h3
        omega

theorem New_inv {seed : String → Nat} {maxCacheSize : Int} {shards : Nat} {ca : Cache V}
    (h : twoQueues.New seed maxCacheSize shards = .ok ca) (hs : 1 ≤ shards) :
    CacheInv maxCacheSize shards ca := by
  obtain ⟨_, h2, h3⟩ := New_ok h
  subst h3
  refine ⟨?_, by simp, ?_⟩
  · simp only
    have : (2 : Nat) ^ 63 < 2 ^ 64 := by norm_num
    omega
  · intro sh hsh
    rw [(List.mem_replicate.mp hsh).2]
    exact ⟨rfl, rfl, by simp [ShardBound, newShard]⟩

theorem call_inv {maxCacheSize : Int} {shards : Nat} {ca : Cache V}
    (h : CacheInv maxCacheSize shards ca) (c : Call V) :
    ∃ ca', ca.call c = .ok ca' ∧ CacheInv maxCacheSize shards ca' := by
  obtain ⟨h1, h2, h3⟩ := h
  cases c with
  | get key =>
    have hlt := shardIndex_lt h1 h2 key
    obtain ⟨sh0, hget⟩ : ∃ sh0, ca.shard[ca.shardIndex key]? = some sh0 :=
      ⟨_, List.getElem?_eq_getElem hlt⟩
    have hmem : sh0 ∈ ca.shard := List.getElem?_mem hget
    refine ⟨{ ca with shard := ca.shard.set (ca.shardIndex key) (sh0.get key).2 }, ?_, h1,
      by simp [h2], ?_⟩
    · simp only [Cache.call, Cache.Get, hget]
      rfl
    · intro sh hsh
      rcases List.mem_or_eq_of_mem_set hsh with hin | heq
      · exact h3 sh hin
      · have hold := h3 _ hmem
        have hlim := get_limits sh0 key
        rw [heq]
        exact ⟨hlim.1.trans hold.1, hlim.2.trans hold.2.1, get_bound _ key hold.2.2⟩
  | set key value =>
    have hlt := shardIndex_lt h1 h2 key
    obtain ⟨sh0, hget⟩ : ∃ sh0, ca.shard[ca.shardIndex key]? = some sh0 :=
      ⟨_, List.getElem?_eq_getElem hlt⟩
    have hmem : sh0 ∈ ca.shard := List.getElem?_mem hget
    refine ⟨{ ca with shard := ca.shard.set (ca.shardIndex key) (sh0.set key value) }, ?_, h1,
      by simp [h2], ?_⟩
    · simp only [Cache.call, Cache.Set, hget]
    · intro sh hsh
      rcases List.mem_or_eq_of_mem_set hsh with hin | heq
      · exact h3 sh hin
      · have hold := h3 _ hmem
        have hlim := set_limits sh0 key value
        rw [heq]
        exact ⟨hlim.1.trans hold.1, hlim.2.trans hold.2.1, set_bound _ key value hold.2.2⟩

theorem calls_inv {maxCacheSize : Int} {shards : Nat} (cs : List (Call V)) :
    ∀ {ca : Cache V}, CacheInv maxCacheSize shards ca →
      ∃ ca', ca.calls cs = .ok ca' ∧ CacheInv maxCacheSize shards ca' := by
  induction cs with
  | nil =>
    intro ca h
    exact ⟨ca, rfl, h⟩
  | cons c cs ih =>
    intro ca h
    obtain ⟨ca1, h1, hinv1⟩ := call_inv h c
    obtain ⟨ca2, h2, hinv2⟩ := ih hinv1
    refine ⟨ca2, ?_, hinv2⟩
    simp only [Cache.calls, h1]
    exact h2

end CacheSizeLemmas

/-! ## The cache: keys of the two lists -/

section CacheKeyLemmas

open twoQueues

variable {V : Type}

theorem keys_remove (l : List (entry V)) (key : String) :
    (remove l key).map entry.key = (l.map entry.key).erase key := by
  induction l with
  | nil => rfl
  | cons e es ih =>
    unfold remove at ih ⊢
    by_cases h : e.key = key
    · subst h
      simp [List.eraseP_cons]
    · have h' : (e.key == key) = false := by simpa using h
      rw [List.eraseP_cons, h', cond_false, List.map_cons, ih, List.map_cons,
        List.erase_cons_tail (by simpa using h)]

theorem keys_setValue (l : List (entry V)) (key : String) (value : V) :
    (setValue l key value).map entry.key = l.map entry.key := by
  induction l with
  | nil => rfl
  | cons e es ih =>
    simp only [setValue]
    split <;> simp [ih]

theorem keys_evict_sublist (l : List (entry V)) (m : Int) :
    ((evict l m).map entry.key).Sublist (l.map entry.key) := by
  unfold evict
  split
  · exact (List.dropLast_sublist l).map _
  · exact List.Sublist.refl _

theorem lookup_setValue {l : List (entry V)} {key : String} {e : entry V} (value : V)
    (h : lookup l key = some e) : lookup (setValue l key value) key = some ⟨e.key, value⟩ := by
  induction l with
  | nil => simp [lookup] at h
  | cons a as ih =>
    unfold lookup at h ih ⊢
    simp only [setValue]
    by_cases ha : (a.key == key) = true
    · rw [List.find?_cons, ha] at h
      simp only [Option.some.injEq] at h
      subst h
      rw [if_pos ha, List.find?_cons]
      simp [ha]
    · have ha' : (a.key == key) = false := by simpa using ha
      rw [List.find?_cons, ha'] at h
      rw [if_neg ha, List.find?_cons, ha']
      exact ih h

theorem evict_cons_of_pos (x : entry V) (l : List (entry V)) {m : Int} (hm : 1 ≤ m) :
    ∃ t, evict (x :: l) m = x :: t := by
  unfold evict
  split
  · rename_i hgt
    rcases l with _ | ⟨y, ys⟩
    · simp at hgt
      omega
    · exact ⟨(y :: ys).dropLast, List.dropLast_cons₂⟩
  · exact ⟨l, rfl⟩

theorem lookup_cons_self (x : entry V) (l : List (entry V)) :
    lookup (x :: l) x.key = some x := by
  simp [lookup]

theorem keysInv_get (sh : cacheShard V) (key : String) (h : KeysInv sh) :
    KeysInv (sh.get key).2 := by
  obtain ⟨hh, hc, hd⟩ := h
  unfold cacheShard.get
  split
  · rename_i e he
    have he' := lookup_some he
    have hk : key ∈ sh.cache.map entry.key := List.mem_map.mpr ⟨e, he'.1, he'.2⟩
    refine ⟨hh, ?_, ?_⟩
    · simp only [List.map_cons, keys_remove, he'.2]
      refine List.nodup_cons.mpr ⟨?_, hc.erase key⟩
      intro hin
      exact ((hc.mem_erase_iff).mp hin).1 rfl
    · intro k hkh hkc
      simp only [List.map_cons, keys_remove, he'.2] at hkc
      rcases List.mem_cons.mp hkc with rfl | hin
      · exact hd _ hkh hk
      · exact hd k hkh (List.mem_of_mem_erase hin)
  · rename_i hnone
    split
    · rename_i e he
      have he' := lookup_some he
      have hnc : key ∉ sh.cache.map entry.key := lookup_eq_none_iff.mp hnone
      have hsub := keys_evict_sublist (e :: sh.cache) sh.maxShardSize
      have hnd : ((e :: sh.cache).map entry.key).Nodup := by
        simp only [List.map_cons, he'.2]
        exact List.nodup_cons.mpr ⟨hnc, hc⟩
      refine ⟨?_, hnd.sublist hsub, ?_⟩
      · simp only [keys_remove]
        exact hh.erase key
      · intro k hkh hkc
        simp only [keys_remove] at hkh
        have h1 := (hh.mem_erase_iff).mp hkh
        have h2 := hsub.subset hkc
        simp only [List.map_cons, he'.2] at h2
        rcases List.mem_cons.mp h2 with rfl | hin
        · exact h1.1 rfl
        · exact hd k h1.2 hin
    · exact ⟨hh, hc, hd⟩

theorem keysInv_set (sh : cacheShard V) (key : String) (value : V) (h : KeysInv sh) :
    KeysInv (sh.set key value) := by
  obtain ⟨hh, hc, hd⟩ := h
  unfold cacheShard.set
  split
  · refine ⟨?_, hc, ?_⟩
    · simp only [keys_setValue]
      exact hh
    · intro k hk
      simp only [keys_setValue] at hk
      exact hd k hk
  · rename_i hnone
    have hnh : key ∉ sh.history.map entry.key := lookup_eq_none_iff.mp hnone
    split
    · rename_i e he
      have he' := lookup_some he
      have hsub := keys_evict_sublist (⟨e.key, value⟩ :: sh.history) sh.maxHistorySize
      have hnd : ((⟨e.key, value⟩ :: sh.history : List (entry V)).map entry.key).Nodup := by
        simp only [List.map_cons, he'.2]
        exact List.nodup_cons.mpr ⟨hnh, hh⟩
      refine ⟨hnd.sublist hsub, ?_, ?_⟩
      · simp only [keys_remove]
        exact hc.erase key
      · intro k hkh hkc
        simp only [keys_remove] at hkc
        have h1 := (hc.mem_erase_iff).mp hkc
        have h2 := hsub.subset hkh
        simp only [List.map_cons, he'.2] at h2
        rcases List.mem_cons.mp h2 with rfl | hin
        · exact h1.1 rfl
        · exact hd k hin h1.2
    · rename_i hnone2
      have hnc : key ∉ sh.cache.map entry.key := lookup_eq_none_iff.mp hnone2
      have hsub := keys_evict_sublist (⟨key, value⟩ :: sh.history) sh.maxHistorySize
      have hnd : ((⟨key, value⟩ :: sh.history : List (entry V)).map entry.key).Nodup := by
        simp only [List.map_cons]
        exact List.nodup_cons.mpr ⟨hnh, hh⟩
      refine ⟨hnd.sublist hsub, hc, ?_⟩
      intro k hkh
      have h2 := hsub.subset hkh
      simp only [List.map_cons] at h2
      rcases List.mem_cons.mp h2 with rfl | hin
      · exact hnc
      · exact hd k hin

theorem calls_snoc (sh : cacheShard V) (cs : List (Call V)) (c : Call V) :
    sh.calls (cs ++ [c]) = (sh.calls cs).call c := by
  simp [cacheShard.calls, List.foldl_append]

/-- After any calls a shard built by `New` has its keys in order and its limits
unchanged. -/
theorem calls_keysInv (maxCacheSize : Int) (shards : Nat) (cs : List (Call V)) :
    KeysInv ((newShard maxCacheSize shards : cacheShard V).calls cs)
    ∧ ((newShard maxCacheSize shards : cacheShard V).calls cs).maxHistorySize
        = (newShard maxCacheSize shards : cacheShard V).maxHistorySize := by
  induction cs using List.reverseRecOn with
  | nil =>
    refine ⟨?_, rfl⟩
    simp [cacheShard.calls, KeysInv, newShard]
  | append_singleton cs c ih =>
    rw [calls_snoc]
    cases c with
    | get key =>
      exact ⟨keysInv_get _ key ih.1, (get_limits _ key).2.trans ih.2⟩
    | set key value =>
      exact ⟨keysInv_set _ key value ih.1, (set_limits _ key value).2.trans ih.2⟩

/-- In a shard whose history limit is at least 1, `get` right after `set` finds the
value just set. -/
theorem get_set_of_keysInv (sh : cacheShard V) (key : String) (value : V) (h : KeysInv sh)
    (hm : 1 ≤ sh.maxHistorySize) : ((sh.set key value).get key).1 = some value := by
  obtain ⟨hh, hc, hd⟩ := h
  unfold cacheShard.set
  split
  · rename_i e he
    have he' := lookup_some he
    have hk : key ∈ sh.history.map entry.key := List.mem_map.mpr ⟨e, he'.1, he'.2⟩
    have hnc : lookup sh.cache key = none := lookup_eq_none_iff.mpr (hd key hk)
    simp only [cacheShard.get, hnc, lookup_setValue value he]
  · rename_i hnone
    split
    · rename_i e he
      have he' := lookup_some he
      have hnc : lookup (remove sh.cache key) key = none := by
        rw [lookup_eq_none_iff, keys_remove]
        intro hin
        exact ((hc.mem_erase_iff).mp hin).1 rfl
      obtain ⟨t, ht⟩ := evict_cons_of_pos (⟨e.key, value⟩ : entry V) sh.history hm
      have hl : lookup (evict (⟨e.key, value⟩ :: sh.history) sh.maxHistorySize) key
          = some ⟨e.key, value⟩ := by
        rw [ht]
        have := lookup_cons_self (⟨e.key, value⟩ : entry V) t
        simp only [he'.2] at this ⊢
        exact this
      simp only [cacheShard.get, hnc, hl]
    · rename_i hnone2
      obtain ⟨t, ht⟩ := evict_cons_of_pos (⟨key, value⟩ : entry V) sh.history hm
      have hl : lookup (evict (⟨key, value⟩ :: sh.history) sh.maxHistorySize) key
          = some ⟨key, value⟩ := by
        rw [ht]
        exact lookup_cons_self (⟨key, value⟩ : entry V) t
      simp only [cacheShard.get, hnone2, hl]

end CacheKeyLemmas

/-! ## The cache: what `New` accepts -/

section CacheNewLemmas

open twoQueues

variable {V : Type}

theorem not_isPowerOfTwo_six : ¬ IsPowerOfTwo 6 := by
  rintro ⟨k, hk⟩
  rcases k with _ | _ | _ | k
  · omega
  · omega
  · omega
  · have : 2 ^ (k + 3) = 8 * 2 ^ k := by ring
    have hpos : 0 < 2 ^ k := Nat.pow_pos (by decide)
    omega

theorem not_isPowerOfTwo_zero : ¬ IsPowerOfTwo 0 := by
  rintro ⟨k, hk⟩
  have hpos : 0 < 2 ^ k := Nat.pow_pos (by decide)
  omega

/-- The test of line 37 is a test of oddness: `New` panics with its message exactly for
the odd values other than 1. -/
theorem New_panics_iff_odd (seed : String → Nat) (maxCacheSize : Int) (shards : Nat) :
    (twoQueues.New seed maxCacheSize shards : Except String (Cache V))
        = .error "shards must be a power of 2"
      ↔ shards ≠ 1 ∧ shards % 2 = 1 := by
  unfold twoQueues.New
  rw [Nat.and_one_is_mod]
  constructor
  · intro h
    split at h
    · rename_i hc
      exact ⟨hc.1, by omega⟩
    · split at h
      · simp at h
      · cases h
  · intro h
    rw [if_pos ⟨h.1, by omega⟩]

/-- In a cache that `New` built with at least one shard, the shard index of every key
is within the slice of shards. -/
theorem shardIndex_in_range {seed : String → Nat} {maxCacheSize : Int} {shards : Nat}
    {ca : Cache V} (h : twoQueues.New seed maxCacheSize shards = .ok ca) (hs : 1 ≤ shards)
    (k : String) : ca.shardIndex k < ca.shard.length := by
  have hinv := New_inv h hs
  exact shardIndex_lt hinv.1 hinv.2.1 k

/-- When the product of line 58 fits an `int`, the history limit of a shard is ten times
its shard limit, hence at least 1 as soon as the shard limit is. -/
theorem maxHistorySize_of_fits (maxCacheSize : Int) (shards : Nat)
    (hq : 1 ≤ Int.tdiv maxCacheSize shards) (hfit : Int.tdiv maxCacheSize shards * 10 ≤ maxInt64) :
    (newShard maxCacheSize shards : cacheShard V).maxHistorySize
        = Int.tdiv maxCacheSize shards * 10
    ∧ 1 ≤ (newShard maxCacheSize shards : cacheShard V).maxHistorySize := by
  have h : (newShard maxCacheSize shards : cacheShard V).maxHistorySize
      = Int.tdiv maxCacheSize shards * 10 := wrapInt64_eq (by omega) hfit
  rw [h]
  exact ⟨rfl, by omega⟩

end CacheNewLemmas

/-! ## `PushPriorityItem`: the insertion point -/

section InsertionPoint

variable {T : Type}

theorem insertAfterGE_split (v : ChanItem T) :
    ∀ l : List (ChanItem T), ∃ pre post, l = pre ++ post ∧ insertAfterGE v l = pre ++ v :: post
      ∧ (∀ b ∈ pre, v.Priority ≤ b.Priority)
      ∧ (∀ b, post.head? = some b → b.Priority < v.Priority)
  | [] => ⟨[], [], rfl, rfl, by simp, by simp⟩
  | e :: es => by
    by_cases h : v.Priority ≤ e.Priority
    · obtain ⟨pre, post, h1, h2, h3, h4⟩ := insertAfterGE_split v es
      refine ⟨e :: pre, post, by rw [h1]; rfl, by simp [insertAfterGE, h, h2], ?_, h4⟩
      intro b hb
      rcases List.mem_cons.mp hb with rfl | hb'
      · exact h
      · exact h3 b hb'
    · refine ⟨[], e :: es, rfl, by simp [insertAfterGE, h], by simp, ?_⟩
      intro b hb
      simp only [List.head?_cons, Option.some.injEq] at hb
      subst hb
      omega

/-- Whatever the buffer, `PushPriorityItem` splits it in two and puts the new item in
between. -/
theorem PushPriorityItem_split (ls : List (ChanItem T)) (v : ChanItem T) :
    ∃ pre post, ls = pre ++ post ∧ PushPriorityItem ls v = pre ++ v :: post := by
  rcases ls with _ | ⟨front, rest⟩
  · exact ⟨[], [], rfl, rfl⟩
  · unfold PushPriorityItem
    dsimp only
    split
    · exact ⟨[], front :: rest, rfl, rfl⟩
    · split
      · exact ⟨front :: rest, [], by simp, rfl⟩
      · rename_i hf hl
        rcases rest with _ | ⟨r, rs⟩
        · simp at hl; omega
        · have hl' : (List.getLast (r :: rs) (List.cons_ne_nil _ _)).Priority < v.Priority := by
            rw [List.getLast_cons (List.cons_ne_nil r rs)] at hl
            omega
          rw [scanInsert_eq_insertAfterGE v (r :: rs) (List.cons_ne_nil _ _) hl']
          obtain ⟨pre, post, h1, h2, _, _⟩ := insertAfterGE_split v (r :: rs)
          exact ⟨front :: pre, post, by rw [h1]; rfl, by rw [h2]; rfl⟩

/-- On a sorted buffer the new item goes right after the items whose priority is at
least its own, and all the items behind it have a strictly lower priority. -/
theorem PushPriorityItem_split_sorted (ls : List (ChanItem T)) (v : ChanItem T)
    (hs : PrioSorted ls) :
    ∃ pre post, ls = pre ++ post ∧ PushPriorityItem ls v = pre ++ v :: post
      ∧ (∀ b ∈ pre, v.Priority ≤ b.Priority) ∧ (∀ b ∈ post, b.Priority < v.Priority) := by
  rw [PushPriorityItem_eq_insertAfterGE ls v hs]
  obtain ⟨pre, post, h1, h2, h3, h4⟩ := insertAfterGE_split v ls
  refine ⟨pre, post, h1, h2, h3, ?_⟩
  have hpost : PrioSorted post := by
    unfold PrioSorted at hs ⊢
    rw [h1] at hs
    exact (List.pairwise_append.mp hs).2.1
  rcases post with _ | ⟨c, cs⟩
  · intro b hb; cases hb
  · intro b hb
    have hc := h4 c rfl
    rcases List.mem_cons.mp hb with rfl | hb'
    · exact hc
    · have := (List.pairwise_cons.mp hpost).1 b hb'
      omega

end InsertionPoint

/-! ## Claims about `PushPriorityItem` -/

/-- C1: items pushed one after another with `PushPriorityItem` into an initially empty
buffer, with no removal in between, leave the buffer equal to the stable sort of the
input by non-increasing priority: the buffer is a permutation of the input, its
priorities are non-increasing from front to back, and for every priority the items of
that priority appear in submission order. Priorities `[1, 5, 3, 5]` give `[5, 5, 3, 1]`
with the first-submitted 5 ahead of the second. -/
theorem C1_pushAll_stable_sort {T : Type} (xs : List (ChanItem T)) :
    (pushAll xs).Perm xs
    ∧ (pushAll xs).Pairwise (fun a b => b.Priority ≤ a.Priority)
    ∧ (∀ p : Int, (pushAll xs).filter (fun a => decide (a.Priority = p))
        = xs.filter (fun a => decide (a.Priority = p)))
    ∧ pushAll [(⟨"a", 1⟩ : ChanItem String), ⟨"b", 5⟩, ⟨"c", 3⟩, ⟨"d", 5⟩]
        = [⟨"b", 5⟩, ⟨"d", 5⟩, ⟨"c", 3⟩, ⟨"a", 1⟩] :=
  ⟨pushAll_perm xs, pushAll_sorted xs, pushAll_filter xs, by decide⟩

/-- C16: for every buffer, sorted or not, and every item, `PushPriorityItem` inserts the
item exactly once: the length grows by exactly one, the new buffer is a permutation of
the old one plus the item, and the buffer is cut in two parts between which the item is
put, so the items already buffered keep their relative order and the item is never
dropped. -/
theorem C16_push_inserts_exactly_once {T : Type} (ls : List (ChanItem T)) (v : ChanItem T) :
    (PushPriorityItem ls v).length = ls.length + 1
    ∧ (PushPriorityItem ls v).Perm (v :: ls)
    ∧ ∃ pre post, ls = pre ++ post ∧ PushPriorityItem ls v = pre ++ v :: post :=
  ⟨by simpa using (PushPriorityItem_perm ls v).length_eq, PushPriorityItem_perm ls v,
    PushPriorityItem_split ls v⟩

/-! ## Claims about the relay coordinator -/

theorem relayTwoBuffered_reachable : relayTwoBuffered.Reachable :=
  RelayState.Reachable.run RelayState.Reachable.init
    [.acceptBuffer ⟨10, 1⟩, .acceptBuffer ⟨11, 5⟩] (by decide)

theorem relayClosedNonEmpty_reachable : relayClosedNonEmpty.Reachable :=
  RelayState.Reachable.run RelayState.Reachable.init
    [.acceptBuffer ⟨10, 1⟩, .closeIn] (by decide)

/-- C2: in every reachable state of the relay coordinator, a step either sends nothing
on `Out`, or sends one item `x` that is the front element of the buffer (which it
removes) or, in the direct handoff, the item just accepted while the buffer was empty;
at that moment no buffered item has a strictly greater priority than `x`, nor an equal
priority with an earlier arrival. -/
theorem C2_delivery_front_or_direct {T : Type} (s s' : RelayState T) (a : RelayAction T)
    (hr : s.Reachable) (hstep : s.step a = some s') :
    (s.output a = none ∧ s'.delivered = s.delivered)
    ∨ ∃ x, s.output a = some x ∧ s'.delivered = s.delivered ++ [x]
        ∧ ((a = .sendFront ∧ s.buffer.head? = some x ∧ s'.buffer = s.buffer.tail)
            ∨ (∃ v, a = .acceptDirect v ∧ x = s.stamp v ∧ s.buffer = [] ∧ s'.buffer = []))
        ∧ (∀ b ∈ s.buffer, ¬ x.Priority < b.Priority
            ∧ ¬ (b.Priority = x.Priority ∧ b.Value.2 < x.Value.2)) := by
  have hinv := hr.inv
  cases a with
  | acceptDirect v =>
    simp only [RelayState.step] at hstep
    split at hstep
    · rename_i hc
      cases hstep
      have hb := hinv.buffer_of_outer hc.2
      refine Or.inr ⟨s.stamp v, by simp [RelayState.output, hc], rfl,
        Or.inr ⟨v, rfl, rfl, hb, hb⟩, ?_⟩
      intro b hb'
      rw [hb] at hb'
      cases hb'
    · cases hstep
  | acceptBuffer v =>
    simp only [RelayState.step] at hstep
    split at hstep
    · cases hstep
      exact Or.inl ⟨rfl, rfl⟩
    · cases hstep
  | sendFront =>
    simp only [RelayState.step] at hstep
    split at hstep
    · rename_i hc
      split at hstep
      · cases hstep
      · rename_i x rest hb
        cases hstep
        refine Or.inr ⟨x, by simp [RelayState.output, hc, hb], rfl,
          Or.inl ⟨rfl, by simp [hb], by simp [hb]⟩, ?_⟩
        have ho := hinv.ordered
        rw [hb] at ho ⊢
        intro b hb'
        rcases List.mem_cons.mp hb' with rfl | hb''
        · exact ⟨lt_irrefl _, fun h => absurd h.2 (lt_irrefl _)⟩
        · rcases (List.pairwise_cons.mp ho).1 b hb'' with h1 | ⟨h1, h2⟩
          · exact ⟨by omega, fun h => by omega⟩
          · exact ⟨by omega, fun h => by omega⟩
    · cases hstep
  | closeIn =>
    simp only [RelayState.step] at hstep
    split at hstep
    · cases hstep
      exact Or.inl ⟨rfl, rfl⟩
    · cases hstep
  | seeClosed =>
    simp only [RelayState.step] at hstep
    split at hstep
    · split at hstep
      · cases hstep; exact Or.inl ⟨rfl, rfl⟩
      · cases hstep; exact Or.inl ⟨rfl, rfl⟩
      · cases hstep
    · cases hstep

/-- Witness of C2: with priorities 1 then 5 buffered, the coordinator delivers the item
of priority 5. -/
theorem C2_delivery_front_or_direct_witness :
    relayTwoBuffered.Reachable
    ∧ relayTwoBuffered.step .sendFront
        = some { relayTwoBuffered with buffer := [⟨(10, 0), 1⟩], delivered := [⟨(11, 1), 5⟩] }
    ∧ ((relayTwoBuffered.output .sendFront = none
          ∧ [(⟨(11, 1), 5⟩ : ChanItem (Nat × Nat))] = relayTwoBuffered.delivered)
      ∨ ∃ x, relayTwoBuffered.output .sendFront = some x
          ∧ [(⟨(11, 1), 5⟩ : ChanItem (Nat × Nat))] = relayTwoBuffered.delivered ++ [x]
          ∧ (((RelayAction.sendFront : RelayAction Nat) = .sendFront
                ∧ relayTwoBuffered.buffer.head? = some x
                ∧ [(⟨(10, 0), 1⟩ : ChanItem (Nat × Nat))] = relayTwoBuffered.buffer.tail)
              ∨ (∃ v, (RelayAction.sendFront : RelayAction Nat) = .acceptDirect v
                  ∧ x = relayTwoBuffered.stamp v ∧ relayTwoBuffered.buffer = []
                  ∧ [(⟨(10, 0), 1⟩ : ChanItem (Nat × Nat))] = []))
          ∧ (∀ b ∈ relayTwoBuffered.buffer, ¬ x.Priority < b.Priority
              ∧ ¬ (b.Priority = x.Priority ∧ b.Value.2 < x.Value.2))) :=
  ⟨relayTwoBuffered_reachable, by decide,
    C2_delivery_front_or_direct relayTwoBuffered
      { relayTwoBuffered with buffer := [⟨(10, 0), 1⟩], delivered := [⟨(11, 1), 5⟩] }
      .sendFront relayTwoBuffered_reachable (by decide)⟩

/-- C8, as stated, fails: in a reachable relay with one buffered item and `In` closed,
the coordinator that observes the closure stays in its inner loop with `Out` open, and it
reaches the point where `Out` is closed after having delivered the buffered item. -/
theorem C8_counterexample :
    relayClosedNonEmpty.Reachable
    ∧ relayClosedNonEmpty.buffer ≠ [] ∧ relayClosedNonEmpty.inOpen = false
    ∧ relayClosedNonEmpty.step .seeClosed = some relayClosedNonEmpty
    ∧ relayClosedNonEmpty.loc ≠ .done
    ∧ relayClosedNonEmpty.run [.sendFront, .seeClosed]
        = some { loc := .done, buffer := [], inOpen := false,
                 accepted := [⟨(10, 0), 1⟩], delivered := [⟨(10, 0), 1⟩] } :=
  ⟨relayClosedNonEmpty_reachable, by decide, by decide, by decide, by decide, by decide⟩

/-- C8, amended: in every reachable relay state with a non-empty buffer whose inbound
side is closed, the coordinator is in its inner loop and observing the closure leaves
the state unchanged (it does not leave the loop and `Out` stays open); it can still
deliver the front item; every run that reaches the point where `Out` is closed has
delivered all the items buffered at that moment, in buffer order, and delivering them
one by one and then observing the closure is such a run: nothing is discarded. -/
theorem C8_closed_relay_delivers_buffer {T : Type} (s : RelayState T) (hr : s.Reachable)
    (hne : s.buffer ≠ []) (hc : s.inOpen = false) :
    s.loc = .inner
    ∧ s.step .seeClosed = some s
    ∧ (∃ x rest, s.buffer = x :: rest ∧ s.output .sendFront = some x
        ∧ s.step .sendFront = some { s with buffer := rest, loc := RelayState.loopHead rest,
                                            delivered := s.delivered ++ [x] })
    ∧ (∀ acts s', s.run acts = some s' → s'.loc = .done →
        s'.delivered = s.delivered ++ s.buffer)
    ∧ s.run (List.replicate s.buffer.length .sendFront ++ [.seeClosed])
        = some { loc := .done, buffer := [], inOpen := false, accepted := s.accepted,
                 delivered := s.delivered ++ s.buffer } := by
  have hinv := hr.inv
  have hloc : s.loc = .inner := by
    rcases hinv.atLoc with h1 | ⟨_, h2, _⟩
    · rw [h1]; exact loopHead_of_ne_nil hne
    · exact absurd h2 hne
  have hlh : RelayState.loopHead s.buffer = .inner := loopHead_of_ne_nil hne
  refine ⟨hloc, ?_, ?_, ?_, ?_⟩
  · rcases s with ⟨loc, buffer, inOpen, accepted, delivered⟩
    simp only at hloc hc hlh
    subst hloc hc
    simp [RelayState.step, hlh]
  · rcases hb : s.buffer with _ | ⟨x, rest⟩
    · exact absurd hb hne
    · exact ⟨x, rest, rfl, by simp [RelayState.output, hloc, hb],
        by simp [RelayState.step, hloc, hb]⟩
  · intro acts s' hrun hdone
    exact (run_closed_delivers acts hinv hc hrun hdone).1
  · have h := run_closed_drains s.buffer s.accepted s.delivered
    rcases s with ⟨loc, buffer, inOpen, accepted, delivered⟩
    simp only at hloc hc hlh h ⊢
    subst hloc hc
    rw [hlh] at h
    exact h

/-- Witness of amended C8 at the relay with one buffered item and `In` closed. -/
theorem C8_closed_relay_delivers_buffer_witness :
    relayClosedNonEmpty.Reachable
    ∧ relayClosedNonEmpty.buffer ≠ [] ∧ relayClosedNonEmpty.inOpen = false
    ∧ relayClosedNonEmpty.loc = .inner :=
  ⟨relayClosedNonEmpty_reachable, by decide, by decide,
    (C8_closed_relay_delivers_buffer relayClosedNonEmpty relayClosedNonEmpty_reachable
      (by decide) (by decide)).1⟩

/-- C10, as stated, fails: the coordinator is reachable, with `In` open, in a state in
which it has received an item at line 35 and neither sent nor buffered it (one item
accepted, none delivered, `Len()` is 0), and in a state in which the front element has
been sent at line 48 and not yet removed (the item is delivered and still in the
buffer). In both the accepted items are not the delivered ones plus the buffered ones. -/
theorem C10_counterexample :
    coordHolding.Reachable ∧ coordHolding.inOpen = true
    ∧ (coordHolding.accepted : Multiset (ChanItem (Nat × Nat)))
        ≠ (coordHolding.delivered : Multiset (ChanItem (Nat × Nat)))
          + (coordHolding.buffer : Multiset (ChanItem (Nat × Nat)))
    ∧ coordHolding.accepted.length = 1 ∧ coordHolding.delivered = [] ∧ coordHolding.Len = 0
    ∧ coordSent.Reachable ∧ coordSent.inOpen = true
    ∧ (coordSent.accepted : Multiset (ChanItem (Nat × Nat)))
        ≠ (coordSent.delivered : Multiset (ChanItem (Nat × Nat)))
          + (coordSent.buffer : Multiset (ChanItem (Nat × Nat)))
    ∧ coordSent.accepted.length = 1 ∧ coordSent.delivered.length = 1 ∧ coordSent.Len = 1 := by
  refine ⟨coordHolding_reachable, rfl, ?_, rfl, rfl, rfl, coordSent_reachable, rfl, ?_,
    rfl, rfl, rfl⟩
  · intro h
    have := congrArg Multiset.card h
    simp [coordHolding] at this
  · intro h
    have := congrArg Multiset.card h
    simp [coordSent] at this

/-- C10, amended: in every reachable state of the relay coordinator, taken statement by
statement, the multiset of items accepted from `In` equals the multiset of items
delivered on `Out`, plus the buffered items not yet sent, plus the item received and
neither sent nor pushed yet (at most one). When the coordinator is at the receive of
line 35, at the loop condition of line 46 or at the `select` of line 47, these are the
items of the buffer, so accepted = delivered + buffer and `Len()`, the length of the
buffer, is the number of accepted items not yet delivered. Between the send of line 48
and the `Remove` of line 49 the buffer still holds, in front, the item just delivered.
No item occurs twice among the delivered, unsent and in-hand ones: no accepted item is
lost or delivered twice. -/
theorem C10_conservation_by_statement {T : Type} (s : CoordState T) (hr : s.Reachable) :
    (s.accepted : Multiset (ChanItem (T × Nat)))
        = (s.delivered : Multiset (ChanItem (T × Nat)))
          + (s.unsent : Multiset (ChanItem (T × Nat)))
          + (s.inHand : Multiset (ChanItem (T × Nat)))
    ∧ (s.atRest = true →
        (s.accepted : Multiset (ChanItem (T × Nat)))
            = (s.delivered : Multiset (ChanItem (T × Nat)))
              + (s.buffer : Multiset (ChanItem (T × Nat)))
        ∧ s.Len + s.delivered.length = s.accepted.length)
    ∧ (s.loc = .sent48 → ∃ x, s.buffer = x :: s.unsent ∧ x ∈ s.delivered)
    ∧ (s.loc ≠ .sent48 → s.unsent = s.buffer)
    ∧ s.inHand.length ≤ 1
    ∧ (s.delivered ++ s.unsent ++ s.inHand).Nodup
    ∧ s.accepted.Nodup := by
  have hinv := coordInv_of_reachable hr
  have hnd : s.accepted.Nodup := by
    apply List.Nodup.of_map (fun b => b.Value.2)
    rw [hinv.stamps]
    exact List.nodup_range _
  have hm : (s.accepted : Multiset (ChanItem (T × Nat)))
      = (s.delivered : Multiset (ChanItem (T × Nat)))
        + (s.unsent : Multiset (ChanItem (T × Nat)))
        + (s.inHand : Multiset (ChanItem (T × Nat))) := by
    rw [Multiset.coe_add, Multiset.coe_add]
    exact Multiset.coe_eq_coe.mpr hinv.conserve
  refine ⟨hm, ?_, ?_, ?_, ?_, hinv.conserve.nodup_iff.mp hnd, hnd⟩
  · intro hrest
    have hu : s.unsent = s.buffer ∧ s.inHand = [] := by
      unfold CoordState.atRest at hrest
      unfold CoordState.unsent CoordState.inHand
      rcases hl : s.loc with _ | x | _ | _ | _ | x | _ <;> simp only [hl] at hrest ⊢ <;>
        first | exact ⟨trivial, trivial⟩ | exact ⟨rfl, rfl⟩ | cases hrest
    have hc := hinv.conserve
    rw [hu.1, hu.2, List.append_nil] at hc
    refine ⟨?_, ?_⟩
    · rw [Multiset.coe_add]
      exact Multiset.coe_eq_coe.mpr hc
    · have := hc.length_eq
      simp only [List.length_append] at this
      unfold CoordState.Len
      omega
  · intro hl
    obtain ⟨x, hx, hxd⟩ := hinv.sent hl
    refine ⟨x, ?_, hxd⟩
    unfold CoordState.unsent
    rw [hl]
    rcases hb : s.buffer with _ | ⟨y, ys⟩
    · rw [hb] at hx
      cases hx
    · rw [hb] at hx
      simp only [List.head?_cons, Option.some.injEq] at hx
      subst hx
      rfl
  · intro hl
    unfold CoordState.unsent
    split
    · rename_i h
      exact absurd h hl
    · rfl
  · unfold CoordState.inHand
    split <;> simp

/-- Witness of amended C10 at the coordinator that has sent the front element and not
yet removed it. -/
theorem C10_conservation_by_statement_witness :
    coordSent.Reachable
    ∧ (coordSent.accepted : Multiset (ChanItem (Nat × Nat)))
        = (coordSent.delivered : Multiset (ChanItem (Nat × Nat)))
          + (coordSent.unsent : Multiset (ChanItem (Nat × Nat)))
          + (coordSent.inHand : Multiset (ChanItem (Nat × Nat)))
    ∧ coordSent.unsent = [] ∧ coordSent.inHand = [] :=
  ⟨coordSent_reachable, (C10_conservation_by_statement coordSent coordSent_reachable).1,
    rfl, rfl⟩

/-- C13: in every reachable state of the relay coordinator the buffer is sorted by
non-increasing priority and items of equal priority are in arrival order; accepting an
item into the buffer is `PushPriorityItem`, which places the new item immediately after
the last buffered item whose priority is greater than or equal to its own: every item
in front of it has a priority at least its own, every item behind it a strictly lower
one. -/
theorem C13_buffer_sorted_insert_after_last_ge {T : Type} (s : RelayState T)
    (hr : s.Reachable) :
    s.buffer.Pairwise (fun a b => b.Priority ≤ a.Priority)
    ∧ s.buffer.Pairwise (fun a b => a.Priority = b.Priority → a.Value.2 < b.Value.2)
    ∧ ∀ v : ChanItem T,
        (∀ s', s.step (.acceptBuffer v) = some s' →
          s'.buffer = PushPriorityItem s.buffer (s.stamp v))
        ∧ ∃ pre post, s.buffer = pre ++ post
            ∧ PushPriorityItem s.buffer (s.stamp v) = pre ++ s.stamp v :: post
            ∧ (∀ b ∈ pre, v.Priority ≤ b.Priority) ∧ (∀ b ∈ post, b.Priority < v.Priority) := by
  have hinv := hr.inv
  refine ⟨prioSorted_of_ahead hinv.ordered, ?_, ?_⟩
  · refine List.Pairwise.imp ?_ hinv.ordered
    intro a b hab heq
    rcases hab with h1 | ⟨_, h2⟩
    · omega
    · exact h2
  · intro v
    refine ⟨?_, PushPriorityItem_split_sorted s.buffer (s.stamp v)
      (prioSorted_of_ahead hinv.ordered)⟩
    intro s' hstep
    simp only [RelayState.step] at hstep
    split at hstep
    · cases hstep
      rfl
    · cases hstep

/-- Witness of C13 at the relay holding two buffered items. -/
theorem C13_buffer_sorted_insert_after_last_ge_witness :
    relayTwoBuffered.Reachable
    ∧ relayTwoBuffered.buffer.Pairwise (fun a b => b.Priority ≤ a.Priority)
    ∧ PushPriorityItem relayTwoBuffered.buffer (relayTwoBuffered.stamp ⟨12, 5⟩)
        = [⟨(11, 1), 5⟩, ⟨(12, 2), 5⟩, ⟨(10, 0), 1⟩] :=
  ⟨relayTwoBuffered_reachable,
    (C13_buffer_sorted_insert_after_last_ge relayTwoBuffered relayTwoBuffered_reachable).1,
    by decide⟩

/-! ## Claims about the pool -/

theorem singlePoolNew_reachable : singlePoolNew.Reachable :=
  PoolState.Reachable.init hour 0 1 1 rfl

theorem singlePoolReady_reachable : singlePoolReady.Reachable :=
  singlePoolNew_reachable.exec [.spawnCore, .enterLoop] (by decide)

/-- C3: in every reachable state of the pool the number of alive workers equals the
number of slots held in the limiter and is at most `maxSize`; an action that starts a
worker reserves one slot, which was free below the capacity `maxSize`, and an action
that finishes a worker releases exactly one slot. -/
theorem C3_alive_le_maxSize (s : PoolState) (hr : s.Reachable) :
    (s.alive : Int) ≤ s.maxSize
    ∧ s.alive = s.sem
    ∧ (∀ a s', s.step a = some s' →
        (s'.alive = s.alive ∨ s'.alive = s.alive + 1 ∨ s'.alive + 1 = s.alive)
        ∧ (s'.alive = s.alive + 1 → s'.sem = s.sem + 1 ∧ (s.sem : Int) < s.maxSize)
        ∧ (s'.alive + 1 = s.alive → s'.sem + 1 = s.sem)) := by
  have hinv := hr.sem_inv
  refine ⟨by omega, hinv.1.symm, ?_⟩
  intro a s' hstep
  have h := PoolState.step_sem_alive hstep
  omega

/-- Witness of C3 at the single-worker pool with its worker started. -/
theorem C3_alive_le_maxSize_witness :
    singlePoolReady.Reachable ∧ (singlePoolReady.alive : Int) ≤ singlePoolReady.maxSize :=
  ⟨singlePoolReady_reachable, (C3_alive_le_maxSize singlePoolReady singlePoolReady_reachable).1⟩

/-- C6: for every `corePoolSize > maximumPoolSize`, `New` panics with its configuration
message at its first statement: it returns no pool, so no relay, dispatcher or worker
was created, and neither value was clamped. -/
theorem C6_New_panics_on_core_gt_max (keepAliveTime awaitTime maximumPoolSize corePoolSize : Int)
    (h : corePoolSize > maximumPoolSize) :
    New keepAliveTime awaitTime maximumPoolSize corePoolSize
        = .error "corePoolSize must be less than maximumPoolSize"
    ∧ ∀ s, New keepAliveTime awaitTime maximumPoolSize corePoolSize ≠ .ok s := by
  have h1 : New keepAliveTime awaitTime maximumPoolSize corePoolSize
      = .error "corePoolSize must be less than maximumPoolSize" := by
    unfold New
    rw [if_pos h]
  refine ⟨h1, ?_⟩
  intro s hs
  rw [h1] at hs
  cases hs

/-- Witness of C6: `New(time.Hour, 0, 2, 3)` panics. -/
theorem C6_New_panics_on_core_gt_max_witness :
    (3 : Int) > 2 ∧ New hour 0 2 3 = .error "corePoolSize must be less than maximumPoolSize" :=
  ⟨by decide, (C6_New_panics_on_core_gt_max hour 0 2 3 (by decide)).1⟩

/-- C9: in every reachable pool state in which the alive-worker count is at most
`coreSize`, and in every reachable state of a pool with `coreSize = maxSize`, the
idle-timeout step of a worker changes nothing: the worker stays at its `select`, alive,
and the count is unchanged. `DefaultFixedPool(n)` and `DefaultSinglePool()` build pools
with `coreSize = maxSize`, so none of their workers ever terminates because of idleness. -/
theorem C9_idle_timeout_keeps_core_workers (s s' : PoolState) (w : Nat) (hr : s.Reachable)
    (h : (s.alive : Int) ≤ s.coreSize ∨ s.coreSize = s.maxSize)
    (hstep : s.step (.workerIdle w) = some s') :
    s' = s ∧ s'.workers[w]? = some .idle ∧ s'.alive = s.alive
    ∧ (∀ n s0, DefaultFixedPool n = .ok s0 → s0.coreSize = s0.maxSize)
    ∧ (∀ s0, DefaultSinglePool = .ok s0 → s0.coreSize = s0.maxSize) := by
  have hinv := hr.sem_inv
  have hle : ¬ (s.sem : Int) > s.coreSize := by omega
  have hnew : ∀ k a m s0, New k a m m = .ok s0 → s0.coreSize = s0.maxSize := by
    intro k a m s0 h0
    unfold New at h0
    split at h0
    · cases h0
    · split at h0
      · cases h0
      · cases h0
        rfl
  simp only [PoolState.step, if_neg hle] at hstep
  split at hstep
  · rename_i hw
    cases hstep
    exact ⟨rfl, hw, rfl, fun n s0 h0 => hnew _ _ n s0 h0, fun s0 h0 => hnew _ _ 1 s0 h0⟩
  · cases hstep

/-- Witness of C9: the idle timeout of the only worker of the single-worker pool. -/
theorem C9_idle_timeout_keeps_core_workers_witness :
    singlePoolReady.Reachable ∧ singlePoolReady.coreSize = singlePoolReady.maxSize
    ∧ singlePoolReady.step (.workerIdle 0) = some singlePoolReady
    ∧ singlePoolReady.workers[0]? = some .idle :=
  ⟨singlePoolReady_reachable, by decide, by decide,
    (C9_idle_timeout_keeps_core_workers singlePoolReady singlePoolReady 0
      singlePoolReady_reachable (Or.inr (by decide)) (by decide)).2.1⟩

/-- C4, as stated, fails: in the state in which `DefaultSinglePool()` returns, before
any call of `Done`, no worker is alive yet although `coreSize` is 1; the workers are
started afterwards by the dispatcher goroutine. -/
theorem C4_counterexample :
    DefaultSinglePool = .ok singlePoolNew
    ∧ singlePoolNew.Reachable
    ∧ singlePoolNew.cancelled = false
    ∧ (singlePoolNew.alive : Int) < singlePoolNew.coreSize
    ∧ (singlePoolNew.sem : Int) < singlePoolNew.coreSize :=
  ⟨rfl, singlePoolNew_reachable, rfl, by decide, by decide⟩

/-- C4, amended: in every state reached by an execution whose idle-timeout decisions are
serialised, once the dispatcher has finished its start-up loop and as long as `Done` has
not been called, the number of alive workers (the slots held in the limiter) is at
least `coreSize`. -/
theorem C4_floor_after_startup (s : PoolState) (hr : s.SerialReachable)
    (hboot : ∀ i, s.disp ≠ .boot i) (hc : s.cancelled = false) :
    s.coreSize ≤ (s.alive : Int) ∧ s.coreSize ≤ (s.sem : Int) := by
  have hf := (hr.floor hc).1
  have hsa := hr.reachable.sem_inv.1
  have hp : s.provided = s.coreSize := by
    unfold PoolState.provided
    split
    · rename_i i hd
      exact absurd hd (hboot i)
    · rfl
  rw [hp] at hf
  omega

theorem singlePoolReady_serial : singlePoolReady.SerialReachable :=
  PoolState.SerialReachable.step .enterLoop
    (PoolState.SerialReachable.step .spawnCore
      (PoolState.SerialReachable.init hour 0 1 1 (rfl : New hour 0 1 1 = .ok singlePoolNew))
      (by intro w h; cases h)
      (by decide : singlePoolNew.step .spawnCore
        = some { singlePoolNew with sem := 1, disp := .boot 1, workers := [.idle] }))
    (by intro w h; cases h) (by decide)

/-- Witness of amended C4 at the single-worker pool with its worker started. -/
theorem C4_floor_after_startup_witness :
    singlePoolReady.SerialReachable ∧ singlePoolReady.cancelled = false
    ∧ singlePoolReady.coreSize ≤ (singlePoolReady.alive : Int) :=
  ⟨singlePoolReady_serial, rfl,
    (C4_floor_after_startup singlePoolReady singlePoolReady_serial
      (by intro i h; cases h) rfl).1⟩

/-- The idle-timeout test of line 108 and the release of line 99 are separate steps:
two idle workers of a pool with `coreSize = 1` that both see `len(p.semaphore) = 2`
both return, and the pool is left without any worker although `Done` was not called. -/
theorem floor_lost_by_concurrent_idle_timeouts :
    New minute 0 2 1 = .ok elasticPoolNew
    ∧ (elasticPoolNew.exec
        [.spawnCore, .enterLoop, .execute 7 0 true, .pushTimeout, .handoff 1, .workerFinish 1,
         .workerIdle 0, .workerIdle 1, .workerRelease 0, .workerRelease 1]).map
        (fun s => (s.cancelled, s.disp, s.sem, s.workers, s.coreSize))
      = some (false, .await, 0, [.dead, .dead], 1) :=
  ⟨rfl, by decide⟩

theorem cachedPoolNew_reachable : cachedPoolNew.Reachable :=
  PoolState.Reachable.init minute 0 2147483647 0 rfl

theorem cachedPoolShutdown_reachable : cachedPoolShutdown.Reachable :=
  cachedPoolNew_reachable.exec
    [.enterLoop, .execute 7 0 true, .execute 8 0 false, .pushTimeout, .handoff 0, .done]
    (by decide)

/-- C5 fails on the code: after `Done` has been called with item 8 still in the relay,
the `select` of line 69 may take the receive from `Out`, the `select` of line 75 may take
the timeout, and the worker started at line 88 may receive the item sent at line 89: item 8
is handed to a worker and executed after the shutdown. -/
theorem C5_item_dispatched_after_shutdown :
    cachedPoolShutdown.Reachable
    ∧ cachedPoolShutdown.cancelled = true
    ∧ cachedPoolShutdown.relay.buffer = [⟨(8, 1), 0⟩]
    ∧ cachedPoolShutdown.handed = [some 7]
    ∧ (cachedPoolShutdown.exec [.awaitRecv, .pushTimeout, .handoff 1, .workerFinish 1]).map
        (fun s => (s.cancelled, s.handed, s.executed))
      = some (true, [some 7, some 8], [8]) :=
  ⟨cachedPoolShutdown_reachable, rfl, rfl, rfl, by decide⟩

theorem cachedPoolBlocked_reachable : cachedPoolBlocked.Reachable :=
  cachedPoolNew_reachable.exec
    [.enterLoop, .execute 7 0 true, .pushTimeout, .done, .workerCancel 0, .workerRelease 0]
    (by decide)

/-- C7 fails on the code: the send `p.queue <- run` of line 89 has no cancellation
alternative. In a reachable state in which `Done` has been called, the dispatcher is
blocked on it with no worker left, and it stays blocked there in every continuation. -/
theorem C7_dispatcher_blocked_after_shutdown :
    cachedPoolBlocked.Reachable
    ∧ cachedPoolBlocked.cancelled = true
    ∧ cachedPoolBlocked.disp = .handoff
    ∧ cachedPoolBlocked.alive = 0
    ∧ ∀ acts s', cachedPoolBlocked.exec acts = some s' →
        s'.disp = .handoff ∧ s'.alive = 0 := by
  refine ⟨cachedPoolBlocked_reachable, rfl, rfl, by decide, ?_⟩
  intro acts s' hrun
  have h := handoff_stuck_exec acts (rfl : cachedPoolBlocked.disp = .handoff)
    (by decide) hrun
  refine ⟨h.1, ?_⟩
  unfold PoolState.alive
  rw [List.countP_eq_zero]
  intro v hv
  rw [h.2 v hv]
  decide

/-- C11: `Done`, the cancel function of the pool's context, is idempotent: from every
pool state it is enabled (it does not panic), a second call right after the first leaves
the state as the first call left it, and in any state in which the pool is already
cancelled a further call changes nothing. -/
theorem C11_Done_idempotent (s : PoolState) :
    (∃ s1, s.step .done = some s1 ∧ s1.cancelled = true ∧ s1.step .done = some s1)
    ∧ s.exec [.done, .done] = s.exec [.done]
    ∧ (s.cancelled = true → s.step .done = some s) := by
  refine ⟨⟨{ s with cancelled := true }, rfl, rfl, rfl⟩, rfl, ?_⟩
  intro hc
  rcases s with ⟨k, a, m, c, cancelled, sem, disp, run, workers, relay, handed, executed⟩
  simp only at hc
  subst hc
  rfl

/-- C14: for every dispatcher state at the `select` of line 75, holding its in-hand item
`run`, the dispatch timeout is enabled. If the capacity limiter holds fewer than
`maxSize` slots, exactly one slot is reserved, one worker is started, nothing else
changes, and the dispatcher is at the send of line 89. That send can complete, the worker
just started receiving: it hands over the in-hand item, which that worker then executes,
and whichever worker receives, the value received is the in-hand item, the slot count
stays one above and nothing is pulled from the relay. In every continuation, as long as
the dispatcher waits at line 89 the in-hand item is unchanged and nothing went through the
rendezvous, and the next value that goes through the rendezvous is the in-hand item. If
the limiter is full the state is unchanged: the same item stays in hand, no item is
pulled from the relay and the slot count does not change. -/
theorem C14_dispatch_timeout_frame (s : PoolState) (hd : s.disp = .pushTask) :
    ∃ s', s.step .pushTimeout = some s'
      ∧ ((s.sem : Int) < s.maxSize →
          s' = { s with sem := s.sem + 1, workers := s.workers ++ [.idle], disp := .handoff }
          ∧ s'.alive = s.alive + 1
          ∧ s'.step (.handoff s.workers.length)
              = some { s with sem := s.sem + 1, workers := s.workers ++ [.running s.run],
                              disp := .await, handed := s.handed ++ [s.run] }
          ∧ (∀ w t, s'.step (.handoff w) = some t →
              t.handed = s.handed ++ [s.run] ∧ t.workers[w]? = some (.running s.run)
              ∧ t.sem = s.sem + 1 ∧ t.relay = s.relay ∧ t.disp = .await)
          ∧ ∀ acts t, s'.exec acts = some t →
              (t.disp = .handoff ∧ t.run = s.run ∧ t.handed = s.handed)
              ∨ ∃ rest, t.handed = s.handed ++ s.run :: rest)
      ∧ (¬ (s.sem : Int) < s.maxSize → s' = s) := by
  by_cases hlt : (s.sem : Int) < s.maxSize
  · refine ⟨{ s with sem := s.sem + 1, workers := s.workers ++ [.idle], disp := .handoff },
      by simp [PoolState.step, hd, hlt], ?_, fun h => absurd hlt h⟩
    intro _
    refine ⟨rfl, alive_append_idle s, ?_, ?_, ?_⟩
    · simp [PoolState.step, PoolState.hand]
    · intro w t ht
      simp only [PoolState.step, PoolState.hand, if_true] at ht
      split at ht
      · rename_i hw
        cases ht
        have hlen : w < (s.workers ++ [WorkerLoc.idle]).length := by
          rcases Nat.lt_or_ge w (s.workers ++ [WorkerLoc.idle]).length with h | h
          · exact h
          · rw [List.getElem?_eq_none h] at hw
            cases hw
        refine ⟨rfl, ?_, rfl, rfl, rfl⟩
        simp only
        rw [List.getElem?_set_self hlen]
      · cases ht
    · intro acts t hrun
      have h := handoff_wait_exec acts (rfl : DispLoc.handoff = DispLoc.handoff) hrun
      exact h
  · exact ⟨s, by simp [PoolState.step, hd, hlt], fun h => absurd h hlt, fun _ => rfl⟩

/-- Witness of C14: the elastic pool `New(time.Minute, 0, 2, 1)` with its dispatcher
holding item 7 at the `select` of line 75: the timeout starts a second worker, and the
send of line 89 hands item 7 to it. -/
theorem C14_dispatch_timeout_frame_witness :
    ({ elasticPoolNew with sem := 1, disp := .pushTask, run := some 7,
                           workers := [.idle] } : PoolState).disp = .pushTask
    ∧ ∃ s', ({ elasticPoolNew with sem := 1, disp := .pushTask, run := some 7,
                                   workers := [.idle] } : PoolState).step .pushTimeout = some s'
        ∧ s'.sem = 2 ∧ s'.workers = [.idle, .idle] ∧ s'.run = some 7
        ∧ s'.step (.handoff 1)
            = some { elasticPoolNew with sem := 2, disp := .await, run := some 7,
                                         workers := [.idle, .running (some 7)],
                                         handed := [some 7] } := by
  obtain ⟨s', h1, h2, _⟩ := C14_dispatch_timeout_frame
    { elasticPoolNew with sem := 1, disp := .pushTask, run := some 7, workers := [.idle] } rfl
  have h := h2 (by decide)
  refine ⟨rfl, s', h1, by rw [h.1], by rw [h.1]; rfl, by rw [h.1], ?_⟩
  exact h.2.2.1

/-- C15 fails on the code: when the `select` of line 69 takes `<-ctx.Done()` the variable
`run` keeps its previous value, and the `select` of line 75 may still take the timeout and
send it at line 89. In a cached pool cancelled before any submission the nil function is
handed to a worker; in a cached pool cancelled after item 7 was executed, item 7, accepted
once by the relay, is handed and executed a second time. -/
theorem C15_nil_and_stale_run_handed :
    DefaultCachedPool = .ok cachedPoolNew
    ∧ (cachedPoolNew.exec [.enterLoop, .done, .awaitCancel, .pushTimeout, .handoff 0]).map
        (fun s => (s.relay.accepted.length, s.handed, s.workers))
      = some (0, [none], [.running none])
    ∧ (cachedPoolNew.exec
        [.enterLoop, .execute 7 0 true, .pushTimeout, .handoff 0, .workerFinish 0, .done,
         .awaitCancel, .pushTimeout, .handoff 1, .workerFinish 1]).map
        (fun s => (s.relay.accepted.map (fun b => b.Value.1), s.handed, s.executed))
      = some ([7], [some 7, some 7], [7, 7]) :=
  ⟨rfl, by decide, by decide⟩

/-! ## Claims about the cache -/

/-- C12 fails on the code: the test of line 37 only rejects the odd values other than 1.
For `shards = 6`, which is not a power of two, `New` returns a cache with 6 shards and
mask 5; for `shards = 0`, which is not a power of two either, it returns a cache without
any shard. -/
theorem C12_New_accepts_non_powers_of_two :
    ¬ twoQueues.IsPowerOfTwo 6
    ∧ (∃ ca : twoQueues.Cache Nat, twoQueues.New (fun _ => 0) 100 6 = .ok ca
        ∧ ca.shard.length = 6 ∧ ca.shardMask = 5)
    ∧ ¬ twoQueues.IsPowerOfTwo 0
    ∧ (∃ ca : twoQueues.Cache Nat, twoQueues.New (fun _ => 0) 100 0 = .ok ca
        ∧ ca.shard.length = 0) :=
  ⟨not_isPowerOfTwo_six, ⟨_, rfl, rfl, rfl⟩, not_isPowerOfTwo_zero, ⟨_, rfl, rfl⟩⟩

/-- C17 fails on the code: with `maxCacheSize = math.MaxInt64` and one shard,
`maxCacheSize / shards` is at least 1 but the product of line 58 wraps around to -10, so
`set` evicts at once the entry it has just pushed and the `get` that follows finds
nothing. -/
theorem C17_get_after_set_misses_on_wrapped_limit :
    1 ≤ Int.tdiv twoQueues.maxInt64 1
    ∧ (twoQueues.newShard twoQueues.maxInt64 1 : twoQueues.cacheShard Nat).maxHistorySize = -10
    ∧ ((twoQueues.newShard twoQueues.maxInt64 1 : twoQueues.cacheShard Nat).set "k" 5).history = []
    ∧ ((((twoQueues.newShard twoQueues.maxInt64 1 : twoQueues.cacheShard Nat).calls []).set
          "k" 5).get "k").1 = none :=
  ⟨by decide, by decide, by decide, by decide⟩

/-- Where the history limit of the shards is at least 1, which is the case whenever
`maxCacheSize / shards` is at least 1 and its product by 10 fits an `int`, `get(k)`
called immediately after `set(k, v)` returns `(v, true)`, in every shard reached from the
empty shard built by `New` by any sequence of `get` and `set` calls. -/
theorem get_after_set_of_history_limit (V : Type) (maxCacheSize : Int) (shards : Nat)
    (cs : List (twoQueues.Call V)) (k : String) (v : V)
    (hw : 1 ≤ (twoQueues.newShard maxCacheSize shards : twoQueues.cacheShard V).maxHistorySize) :
    ((((twoQueues.newShard maxCacheSize shards : twoQueues.cacheShard V).calls cs).set
        k v).get k).1 = some v := by
  have hinv := calls_keysInv (V := V) maxCacheSize shards cs
  apply get_set_of_keysInv _ k v hinv.1
  rw [hinv.2]
  exact hw

theorem get_after_set_of_history_limit_example :
    ((((twoQueues.newShard 10 1 : twoQueues.cacheShard Nat).calls
          [.set "a" 1, .get "a"]).set "k" 5).get "k").1 = some 5 :=
  get_after_set_of_history_limit Nat 10 1 [.set "a" 1, .get "a"] "k" 5 (by decide)

/-- C18: for every cache built by `New` with `maxCacheSize >= 0` and `shards >= 1`, every
sequence of `Get` and `Set` calls runs without panic, and afterwards each shard's cache
list holds at most `maxCacheSize / shards` entries and its history list at most
`10 * (maxCacheSize / shards)` entries. -/
theorem C18_shard_lists_bounded {V : Type} (seed : String → Nat) (maxCacheSize : Int)
    (shards : Nat) (ca0 : twoQueues.Cache V) (cs : List (twoQueues.Call V))
    (hm : 0 ≤ maxCacheSize) (hs : 1 ≤ shards)
    (hnew : twoQueues.New seed maxCacheSize shards = .ok ca0) :
    ∃ ca, ca0.calls cs = .ok ca
      ∧ ∀ sh ∈ ca.shard, (sh.cache.length : Int) ≤ maxCacheSize / (shards : Int)
          ∧ (sh.history.length : Int) ≤ 10 * (maxCacheSize / (shards : Int)) := by
  obtain ⟨ca, hca, hinv⟩ := calls_inv cs (New_inv hnew hs)
  refine ⟨ca, hca, ?_⟩
  intro sh hsh
  obtain ⟨h1, h2, hb1, hb2⟩ := hinv.2.2 sh hsh
  have hdiv : Int.tdiv maxCacheSize shards = maxCacheSize / (shards : Int) :=
    Int.tdiv_eq_ediv hm (by omega)
  have hq : 0 ≤ maxCacheSize / (shards : Int) := Int.ediv_nonneg hm (by omega)
  rw [hdiv] at h1 h2
  rw [h1] at hb1
  rw [h2] at hb2
  have hwrap := wrapInt64_le (x := maxCacheSize / (shards : Int) * 10) (by omega)
  refine ⟨?_, ?_⟩
  · rw [max_eq_left hq] at hb1
    exact hb1
  · rcases le_total (twoQueues.wrapInt64 (maxCacheSize / (shards : Int) * 10)) 0 with h0 | h0
    · rw [max_eq_right h0] at hb2
      omega
    · rw [max_eq_left h0] at hb2
      omega

/-- Witness of C18: a cache of 2 shards built with `maxCacheSize = 100`. -/
theorem C18_shard_lists_bounded_witness :
    (0 : Int) ≤ 100 ∧ 1 ≤ 2
    ∧ ∃ ca, (({ seed := fun _ => 0, shardMask := 1,
                shard := List.replicate 2 (twoQueues.newShard 100 2) } :
              twoQueues.Cache Nat).calls [.set "a" 1, .get "a"]) = .ok ca
        ∧ ∀ sh ∈ ca.shard, (sh.cache.length : Int) ≤ (100 : Int) / ((2 : Nat) : Int)
            ∧ (sh.history.length : Int) ≤ 10 * ((100 : Int) / ((2 : Nat) : Int)) :=
  ⟨by decide, by decide,
    C18_shard_lists_bounded (fun _ => 0) 100 2 _ [.set "a" 1, .get "a"] (by decide)
      (by decide) rfl⟩

/-- C19 fails on the code: `New` returns without panic for `shards = 0`; the cache it
returns has no shard and the mask `2^64 - 1`, so the shard index of a key is its hash,
which is not smaller than the number of shards, and `Get` and `Set` panic on the index
out of range. -/
theorem C19_shard_index_out_of_range_without_shards :
    ∃ ca : twoQueues.Cache Nat, twoQueues.New (fun _ => 7) 100 0 = .ok ca
      ∧ ca.shard.length = 0 ∧ ca.shardMask = 2 ^ 64 - 1
      ∧ ca.shardIndex "k" = 7 ∧ ¬ ca.shardIndex "k" < ca.shard.length
      ∧ ca.Get "k" = .error "index out of range"
      ∧ ca.Set "k" 1 = .error "index out of range" :=
  ⟨_, rfl, rfl, by decide, by decide, by decide, rfl, rfl⟩

end Gtools
